import Mathlib

set_option maxRecDepth 16000

/-!
Verification of the persistent mount-table text editor of `zos_mount.py`
(`swap_text`, the tabcomment word-wrap fragment of `run_module`, and the
write-back guard of `run_module`), shallowly embedded over `List String`
buffers and `List Char` character scans.

Conventions of the embedding:
* a buffer is a `List String` of lines without newline characters, exactly
  the `content_lines` list of `swap_text`;
* Python slicing tests such as `line[0:6] == "/* BEG"` are modelled by
  `startsTok`, which compares `line.data.take k` with the token;
* the regular expression
  `^\s*MOUNT\s+FILESYSTEM\(\s*'<removing.upper()>'\s*\)` (compiled without
  `re.IGNORECASE`) is modelled by `msMatch`.  The upper-cased identifier is
  spliced into the pattern uncompiled, so its characters keep their regex
  meaning.  Over the legal z/OS data-set alphabet (after upcasing: letters,
  digits, `@`, `#`, `$`, `.`, `-`) the compiled pattern treats every
  character as a literal except `.`, which matches any character, and `$`,
  a mid-pattern anchor that the mandatory trailing `'` makes unsatisfiable,
  so an identifier containing `$` matches no line; `eatId` reproduces
  exactly this.  For identifiers with characters outside that alphabet
  (such as `(`) the Python `re.compile` call itself raises — an error path
  outside this embedding, at which no theorem below evaluates the matcher.
-/

/-- Python `\s` whitespace class (ASCII part, which is all that occurs in
configuration members). -/
def isPySpace (c : Char) : Bool :=
  c = ' ' || c = '\t' || c = '\n' || c = '\r' || c = '\x0b' || c = '\x0c'

/-- Python `line[0:k] == tok` for a token `tok` of length `k`:
slice-equality, which for these tokens coincides with a prefix test. -/
def startsTok (line : String) (tok : List Char) : Bool :=
  line.data.take tok.length == tok

/-- Python `str.strip()` on a character list. -/
def pyStrip (l : List Char) : List Char :=
  ((l.dropWhile isPySpace).reverse.dropWhile isPySpace).reverse

/-- Python `str.upper()` (ASCII part, which is all that occurs in data-set
names), as applied to `removing` when the pattern is compiled. -/
def pyUpper (s : String) : String := ⟨s.data.map Char.toUpper⟩

/-- A character the spliced pattern treats as a regex literal or as the
self-matching wildcard `.`: the legal z/OS data-set alphabet without `$`.
An identifier of such characters compiles and matches the line built from
it. -/
def dsnPatChar (c : Char) : Bool :=
  c.isAlphanum || c = '@' || c = '#' || c = '.' || c = '-'

/-- Helper of `pySplit`, splitting at newline characters with an explicit
reversed accumulator. -/
def pySplitAux : List Char → List Char → List String
  | [], acc => [acc.reverse.asString]
  | '\n' :: cs, acc => acc.reverse.asString :: pySplitAux cs []
  | c :: cs, acc => pySplitAux cs (c :: acc)

/-- Python `adding.split("\n")`: in particular `"".split("\n") = [""]`. -/
def pySplit (s : String) : List String := pySplitAux s.data []

/-- Python `"\n".join(lines)`. -/
def joinNL : List String → String
  | [] => ""
  | [a] => a
  | a :: b :: rest => a ++ "\n" ++ joinNL (b :: rest)

/-- Greedy `\s*`. -/
def eatWs (cs : List Char) : List Char := cs.dropWhile isPySpace

/-- Match a literal pattern piece, returning the rest of the input. -/
def eatLit : List Char → List Char → Option (List Char)
  | [], cs => some cs
  | _ :: _, [] => none
  | p :: ps, c :: cs => if c = p then eatLit ps cs else none

/-- Match the interpolated identifier piece of the pattern.  `.` matches
any character; `$` is a mid-pattern anchor that can never be satisfied,
because the pattern's mandatory closing `'` still follows, so a pattern
holding `$` matches nothing; the remaining data-set-alphabet characters
are literals. -/
def eatId : List Char → List Char → Option (List Char)
  | [], cs => some cs
  | _ :: _, [] => none
  | p :: ps, c :: cs =>
    if p = '$' then none
    else if p = '.' ∨ c = p then eatId ps cs else none

/-- `re.match` of `^\s*MOUNT\s+FILESYSTEM\(\s*'<removing.upper()>'\s*\)`
against `line` (a prefix match, as `re.match` is). The pattern literals are
case-sensitive; only the `removing` argument is upper-cased, exactly as in
`ms = re.compile(r"^\s*MOUNT\s+FILESYSTEM\(\s*'" + removing.upper() + r"'\s*\)")`. -/
def msMatch (removing line : String) : Bool :=
  match eatLit "MOUNT".data (eatWs line.data) with
  | none => false
  | some cs1 =>
    match cs1 with
    | [] => false
    | c :: _ =>
      if isPySpace c then
        match eatLit "FILESYSTEM(".data (eatWs cs1) with
        | none => false
        | some cs2 =>
          match eatLit ['\''] (eatWs cs2) with
          | none => false
          | some cs3 =>
            match eatId (pyUpper removing).data cs3 with
            | none => false
            | some cs4 =>
              match eatLit ['\''] cs4 with
              | none => false
              | some cs5 =>
                match eatLit [')'] (eatWs cs5) with
                | none => false
                | some _ => true
      else false

/-- The break test of the backward comment walk in `swap_text`:
a line stops the walk (and is itself absorbed as the new block start) when it
is blank, or nonempty and either not a comment (`line[0:2] != "/*"`) or a
BEGIN-comment (`line[0:6] == "/* BEG"`). -/
def backBreak (line : String) : Bool :=
  if line.data.length > 0 then
    !(startsTok line ['/', '*']) || startsTok line ['/', '*', ' ', 'B', 'E', 'G']
  else true

/-- The backward walk `for tmpindex in range(index - 1, 0, -1)` of
`swap_text`: examine indices `t, t-1, …, 1` (index `0` is never examined);
return the first index whose line breaks the walk, and the match index
`matchIdx` when no examined line breaks it. -/
def backscanAux (content : List String) (matchIdx : Nat) : Nat → Nat
  | 0 => matchIdx
  | t + 1 => if backBreak (content.getD (t + 1) "") then t + 1
             else backscanAux content matchIdx t

/-- `remove_starting_at_index` as left by the backward walk from a match at
`matchIdx`. -/
def backscanStart (content : List String) (matchIdx : Nat) : Nat :=
  backscanAux content matchIdx (matchIdx - 1)

/-- The forward-scan close test (`doit`) of `swap_text`: a line closes the
open block when it is blank, or starts with a character that is not a space,
tab or comment opener, or is an END-comment (`line[0:6] == "/* END"`).
In every case the closing line's index becomes the recorded span end. -/
def closesBlock (line : String) : Bool :=
  match line.data with
  | [] => true
  | c :: _ =>
    if c ≠ ' ' && c ≠ '\t' && !(startsTok line ['/', '*']) then true
    else if startsTok line ['/', '*', ' ', 'E', 'N', 'D'] then true
    else false

/-- The mutable scan bookkeeping of `swap_text`:
`remove_starting_at_index`, `remove_ending_at_index`, and the `boneyard`
dict (insertion-ordered key/value pairs). -/
structure ScanState where
  start? : Option Nat
  end? : Option Nat
  boneyard : List (Nat × Nat)
  deriving Repr, DecidableEq

/-- `boneyard[k] = v` with Python dict semantics: update in place when the
key exists, append otherwise. -/
def dictInsert (bd : List (Nat × Nat)) (k v : Nat) : List (Nat × Nat) :=
  if bd.any (fun p => p.1 = k) then
    bd.map (fun p => if p.1 = k then (k, v) else p)
  else bd ++ [(k, v)]

/-- One iteration of the `for index, line in enumerate(content_lines)` loop
of `swap_text` at index `i`. -/
def scanStep (content : List String) (removing : String) (i : Nat)
    (st : ScanState) : ScanState :=
  match st.start? with
  | none =>
    if msMatch removing (content.getD i "") then
      ⟨some (backscanStart content i), some i, st.boneyard⟩
    else st
  | some s =>
    if closesBlock (content.getD i "") then ⟨none, none, dictInsert st.boneyard s i⟩
    else ⟨some s, some i, st.boneyard⟩

/-- Run the scan loop over `fuel` consecutive indices starting at `i`. -/
def scanAux (content : List String) (removing : String) :
    Nat → Nat → ScanState → ScanState
  | 0, _, st => st
  | fuel + 1, i, st =>
    scanAux content removing fuel (i + 1) (scanStep content removing i st)

/-- The state after the whole scan loop of `swap_text`. -/
def scanAll (content : List String) (removing : String) : ScanState :=
  scanAux content removing content.length 0 ⟨none, none, []⟩

/-- The recorded deletion spans, including the trailing flush
`if remove_starting_at_index is not None: …` that records the still-open span
only when `remove_starting_at_index != remove_ending_at_index`. -/
def finalSpans (content : List String) (removing : String) : List (Nat × Nat) :=
  match (scanAll content removing).start?, (scanAll content removing).end? with
  | some s, some e =>
    if s ≠ e then dictInsert (scanAll content removing).boneyard s e
    else (scanAll content removing).boneyard
  | _, _ => (scanAll content removing).boneyard

/-- Python `del content_lines[s : e + 1]`. -/
def delSpan (l : List String) (s e : Nat) : List String :=
  l.take s ++ l.drop (max (e + 1) s)

/-- `for startidx in reversed(boneyard.keys()): del content_lines[…]` —
the spans are handed over already reversed. -/
def deleteSpansRev (spans : List (Nat × Nat)) (l : List String) : List String :=
  spans.foldl (fun acc se => delSpan acc se.1 se.2) l

/-- `swap_text` of `zos_mount.py` at the line level: scan, delete the
recorded spans in reverse key order, then append `adding.split("\n")` when
`adding` is nonempty. The Python function mutates `content_lines` to exactly
this list. -/
def swapLines (original : List String) (adding removing : String) : List String :=
  let content := deleteSpansRev (finalSpans original removing).reverse original
  if adding.length > 0 then content ++ pySplit adding else content

/-- `swap_text`'s return value, `"\n".join(content_lines)`. -/
def swap_text (original : List String) (adding removing : String) : String :=
  joinNL (swapLines original adding removing)

/-- Number of lines of a buffer matching the mount-directive pattern for
`removing`. -/
def countMatches (removing : String) (lines : List String) : Nat :=
  lines.countP (fun l => msMatch removing l)

/-- A Python value that is either a `str` or a `list` of lines, as needed by
the write-back guard `if newtext != content:` of `run_module`. -/
inductive PyVal where
  | pstr : String → PyVal
  | plist : List String → PyVal
  deriving DecidableEq

/-- Python `==` between such values: values of different types are unequal. -/
def pyEq : PyVal → PyVal → Bool
  | PyVal.pstr a, PyVal.pstr b => a == b
  | PyVal.plist a, PyVal.plist b => a == b
  | _, _ => false

/-- The write-back decision of `run_module`: after
`newtext = swap_text(content, parmtext, src)` the member is uploaded iff
`newtext != content`, where `newtext` is the joined string returned by
`swap_text` and `content` is the (in-place mutated) list of lines. -/
def persistWriteOccurs (content : List String) (parmtext src : String) : Bool :=
  !(pyEq (PyVal.pstr (swap_text content parmtext src))
         (PyVal.plist (swapLines content parmtext src)))

/-- The `for i in range(59, 48, -1)` backward search for a space in
`run_module`'s comment wrapper, with `fuel + 48` the index currently
examined; returns the hard-cut stopper 60 when no examined cell holds a
space. -/
def scanBackAux (extra : List Char) : Nat → Nat
  | 0 => 60
  | k + 1 => if extra.getD (48 + (k + 1)) 'x' = ' ' then 48 + (k + 1)
             else scanBackAux extra k

/-- `stopper` as computed for an overlong comment accumulator: scan indices
59 down to 49 for a space, defaulting to 60. -/
def wrapStopper (extra : List Char) : Nat := scanBackAux extra 11

/-- One wrap step: the emitted chunk `extra[0:stopper]` and the stripped
remainder `extra[stopper:].strip()`. -/
def wrapChunk (extra : List Char) : List Char × List Char :=
  let stopper := wrapStopper extra
  (extra.take stopper, pyStrip (extra.drop stopper))

/-- `parmtext += "/* C{ctr}:{chunk}"` followed by `parmtext += " */\n"`. -/
def emitC (ctr : Nat) (chunk : List Char) : String :=
  "/* C" ++ toString ctr ++ ":" ++ chunk.asString ++ " */\n"

/-- `extra` after joining the stripped tabline onto the accumulator
(`if len(extra) > 0: extra += " "` then `extra += tabline.strip()`). -/
def tabAccum (acc1 : List Char) (tabline : String) : List Char :=
  if acc1.length > 0 then acc1 ++ [' '] ++ pyStrip tabline.data
  else pyStrip tabline.data

/-- One iteration of `for tabline in tabcomment:` — join the stripped line
onto the accumulator, then emit either a wrapped chunk (when the accumulator
exceeds 60 characters) or the whole accumulator. -/
def tabForStep (acc : List Char × Nat × String) (tabline : String) :
    List Char × Nat × String :=
  if (tabAccum acc.1 tabline).length > 60 then
    ((wrapChunk (tabAccum acc.1 tabline)).2, acc.2.1 + 1,
      acc.2.2 ++ emitC acc.2.1 (wrapChunk (tabAccum acc.1 tabline)).1)
  else ([], acc.2.1 + 1, acc.2.2 ++ emitC acc.2.1 (tabAccum acc.1 tabline))

/-- The trailing `while len(extra) > 0:` overflow loop, run with explicit
fuel (each wrap step shortens `extra` by at least 49 characters, so
`extra.length + 1` fuel always suffices). -/
def tabWhile : Nat → List Char → Nat → String → String
  | 0, _, _, parm => parm
  | fuel + 1, extra, ctr, parm =>
    if extra.length = 0 then parm
    else if extra.length > 60 then
      tabWhile fuel (wrapChunk extra).2 (ctr + 1) (parm ++ emitC ctr (wrapChunk extra).1)
    else parm ++ emitC ctr extra

/-- The comment lines appended to `parmtext` by the `tabcomment` fragment of
`run_module` (counter starts at 1, accumulator empty). -/
def buildCommentLines (tabcomment : List String) : String :=
  let acc := tabcomment.foldl tabForStep ([], 1, "")
  tabWhile (acc.1.length + 1) acc.1 acc.2.1 acc.2.2

/-! ### A well-formed managed block, as generated by `run_module`:
a BEGIN-comment line, annotation comment lines, the mount directive,
indented continuation lines, an END-comment line. -/

def blockOf (beginL : String) (cmts : List String) (mountL : String)
    (conts : List String) (endL : String) : List String :=
  beginL :: (cmts ++ mountL :: (conts ++ [endL]))

/-- Some index of a recorded span covers `k`. -/
def Covered (bd : List (Nat × Nat)) (k : Nat) : Prop :=
  ∃ se ∈ bd, se.1 ≤ k ∧ k ≤ se.2

/-- The recorded start indices are strictly increasing in insertion order. -/
def KeysInc (bd : List (Nat × Nat)) : Prop :=
  List.Pairwise (fun a b => a.1 < b.1) bd

/-- The loop invariant of the scan of `swap_text` after processing indices
`0, …, i-1`: recorded spans are well formed with strictly increasing starts
and ends below `i`; the last recorded span holds a line that breaks the
backward walk; an open span has its bookkeeping in the documented shape; and
every matching line seen so far is covered by a recorded or the open span. -/
def GI (content : List String) (rem : String) (i : Nat) (st : ScanState) : Prop :=
  KeysInc st.boneyard ∧
  (∀ se ∈ st.boneyard, se.1 ≤ se.2 ∧ se.2 < i) ∧
  (∀ pre lp, st.boneyard = pre ++ [lp] →
    ∃ m, lp.1 ≤ m ∧ m ≤ lp.2 ∧ backBreak (content.getD m "") = true) ∧
  (∀ s, st.start? = some s →
    st.end? = some (i - 1) ∧ 1 ≤ i ∧ s ≤ i - 1 ∧
    (∃ m, s ≤ m ∧ m ≤ i - 1 ∧ msMatch rem (content.getD m "") = true) ∧
    (∀ pre lp, st.boneyard = pre ++ [lp] → lp.1 ≤ s)) ∧
  (∀ k, k < i → msMatch rem (content.getD k "") = true →
    Covered st.boneyard k ∨ ∃ s, st.start? = some s ∧ s ≤ k)

/-- Decidable statement that the scan of `swap_text` does not end in an
open single-line span (the unrecorded bare-trailing-directive case). -/
def noBareTrailing (content : List String) (rem : String) : Bool :=
  match (scanAll content rem).start?, (scanAll content rem).end? with
  | some s, some e => s != e
  | _, _ => true

/-! ### Basic facts about the line classifiers -/

theorem startsTok_iff {line : String} {tok : List Char} :
    startsTok line tok = true ↔ line.data.take tok.length = tok := by
  simp [startsTok]

theorem take_two_eq {l : List Char} {a b : Char} (h : l.take 2 = [a, b]) :
    ∃ t, l = a :: b :: t := by
  match l with
  | [] => simp at h
  | [x] => simp at h
  | x :: y :: t =>
    simp [List.take] at h
    exact ⟨t, by simp [h.1, h.2]⟩

theorem data_ne_nil_of_startsTok {line : String} {a b : Char}
    (h : startsTok line [a, b] = true) : line.data ≠ [] := by
  rw [startsTok_iff] at h
  intro hnil
  rw [hnil] at h
  simp at h

theorem data_length_pos {line : String} (hne : line.data ≠ []) :
    line.data.length > 0 :=
  List.length_pos.mpr hne

theorem startsTok_two_of_six {line : String} {a b c d e f : Char}
    (h : startsTok line [a, b, c, d, e, f] = true) : startsTok line [a, b] = true := by
  rw [startsTok_iff] at h ⊢
  have h6 : line.data.take 6 = [a, b, c, d, e, f] := by simpa using h
  have h2 : (line.data.take 6).take 2 = [a, b] := by rw [h6]; rfl
  rw [List.take_take] at h2
  simpa using h2

theorem msMatch_eq_false_of_comment {r : String} {line : String}
    (h : startsTok line ['/', '*'] = true) : msMatch r line = false := by
  rw [startsTok_iff] at h
  obtain ⟨t, ht⟩ := take_two_eq h
  unfold msMatch
  rw [show eatWs line.data = '/' :: '*' :: t by
    rw [ht]; simp [eatWs, List.dropWhile, isPySpace]]
  rfl

theorem msMatch_data_ne_nil {r line : String} (h : msMatch r line = true) :
    line.data ≠ [] := by
  intro hnil
  unfold msMatch at h
  rw [hnil] at h
  simp [eatWs, eatLit] at h

theorem backBreak_of_msMatch {r line : String} (h : msMatch r line = true) :
    backBreak line = true := by
  have hne : line.data ≠ [] := msMatch_data_ne_nil h
  have h2 : startsTok line ['/', '*'] = false := by
    cases hs : startsTok line ['/', '*'] with
    | false => rfl
    | true => rw [msMatch_eq_false_of_comment hs] at h; exact absurd h (by simp)
  unfold backBreak
  rw [if_pos (data_length_pos hne), h2]
  rfl

theorem backBreak_of_blank {line : String} (h : line.data = []) :
    backBreak line = true := by
  unfold backBreak
  rw [h]
  rfl

theorem backBreak_of_begin {line : String}
    (h : startsTok line ['/', '*', ' ', 'B', 'E', 'G'] = true) : backBreak line = true := by
  have h2 := startsTok_two_of_six h
  have hne := data_ne_nil_of_startsTok h2
  unfold backBreak
  rw [if_pos (data_length_pos hne), h]
  simp

theorem backBreak_eq_false_of_comment {line : String}
    (h2 : startsTok line ['/', '*'] = true)
    (h6 : startsTok line ['/', '*', ' ', 'B', 'E', 'G'] = false) :
    backBreak line = false := by
  have hne := data_ne_nil_of_startsTok h2
  unfold backBreak
  rw [if_pos (data_length_pos hne), h2, h6]
  rfl

theorem closesBlock_of_end {line : String}
    (h : startsTok line ['/', '*', ' ', 'E', 'N', 'D'] = true) : closesBlock line = true := by
  have h2 := startsTok_two_of_six h
  rw [startsTok_iff] at h2
  obtain ⟨t, ht⟩ := take_two_eq h2
  unfold closesBlock
  rw [ht]
  have h2' : startsTok line ['/', '*'] = true := by rw [startsTok_iff]; exact h2
  rw [h2', h]
  rfl

theorem closesBlock_eq_false_of_comment {line : String}
    (h2 : startsTok line ['/', '*'] = true)
    (h6 : startsTok line ['/', '*', ' ', 'E', 'N', 'D'] = false) :
    closesBlock line = false := by
  rw [startsTok_iff] at h2
  obtain ⟨t, ht⟩ := take_two_eq h2
  unfold closesBlock
  rw [ht]
  have h2' : startsTok line ['/', '*'] = true := by rw [startsTok_iff]; exact h2
  rw [h2', h6]
  rfl

theorem closesBlock_of_statement {line : String} {c : Char} {cs : List Char}
    (h : line.data = c :: cs) (h1 : c ≠ ' ') (h2 : c ≠ '\t')
    (h3 : startsTok line ['/', '*'] = false) : closesBlock line = true := by
  unfold closesBlock
  rw [h]
  simp [h1, h2, h3]

theorem closesBlock_eq_false_of_ws {line : String} {c : Char} {cs : List Char}
    (h : line.data = c :: cs) (hc : c = ' ' ∨ c = '\t') : closesBlock line = false := by
  have h6 : startsTok line ['/', '*', ' ', 'E', 'N', 'D'] = false := by
    rw [Bool.eq_false_iff]
    intro habs
    rw [startsTok_iff] at habs
    rw [h] at habs
    rcases hc with hc | hc <;> (rw [hc] at habs; cases cs <;> simp [List.take] at habs)
  unfold closesBlock
  rw [h, h6]
  rcases hc with hc | hc <;> simp [hc]

/-! ### The backward walk -/

theorem backscanAux_le (content : List String) (m : Nat) :
    ∀ t, backscanAux content m t ≤ max m t := by
  intro t
  induction t with
  | zero => simp [backscanAux]
  | succ k ih =>
    unfold backscanAux
    by_cases hb : backBreak (content.getD (k + 1) "") = true
    · rw [if_pos hb]; omega
    · rw [if_neg hb]
      have := ih
      omega

theorem backscanStart_le (content : List String) (i : Nat) :
    backscanStart content i ≤ i := by
  have := backscanAux_le content i (i - 1)
  unfold backscanStart
  omega

theorem backscanAux_ge {content : List String} {i m : Nat}
    (hb : backBreak (content.getD m "") = true) (hm : 1 ≤ m) :
    ∀ t, m ≤ t → m ≤ backscanAux content i t := by
  intro t
  induction t with
  | zero => omega
  | succ k ih =>
    intro hmt
    unfold backscanAux
    by_cases hbb : backBreak (content.getD (k + 1) "") = true
    · rw [if_pos hbb]; omega
    · rw [if_neg hbb]
      rcases Nat.eq_or_lt_of_le hmt with heq | hlt
      · rw [heq] at hb; exact absurd hb hbb
      · exact ih (by omega)

theorem backscanStart_ge {content : List String} {i m : Nat}
    (hb : backBreak (content.getD m "") = true) (hmi : m < i) :
    m ≤ backscanStart content i := by
  rcases Nat.eq_zero_or_pos m with h0 | h1
  · omega
  · exact backscanAux_ge hb h1 (i - 1) (by omega)

theorem backscanAux_exact {content : List String} {i p : Nat}
    (hp : 1 ≤ p) (hb : backBreak (content.getD p "") = true)
    (hmid : ∀ t, p < t → t < i → backBreak (content.getD t "") = false) :
    ∀ t, p ≤ t → t < i → backscanAux content i t = p := by
  intro t
  induction t with
  | zero => omega
  | succ k ih =>
    intro hpt hti
    rcases Nat.eq_or_lt_of_le hpt with heq | hlt
    · unfold backscanAux
      rw [heq] at hb
      rw [if_pos hb]
      omega
    · unfold backscanAux
      have hf := hmid (k + 1) hlt hti
      rw [if_neg (by rw [hf]; simp)]
      exact ih (by omega) (by omega)

theorem backscanStart_exact {content : List String} {i p : Nat}
    (hp : 1 ≤ p) (hb : backBreak (content.getD p "") = true)
    (hmid : ∀ t, p < t → t < i → backBreak (content.getD t "") = false)
    (hpi : p < i) : backscanStart content i = p :=
  backscanAux_exact hp hb hmid (i - 1) (by omega) (by omega)

/-! ### Stepping the scan -/

theorem scanAux_zero (content : List String) (rem : String) (i : Nat) (st : ScanState) :
    scanAux content rem 0 i st = st := rfl

theorem scanAux_succ (content : List String) (rem : String) (f i : Nat) (st : ScanState) :
    scanAux content rem (f + 1) i st =
      scanAux content rem f (i + 1) (scanStep content rem i st) := rfl

theorem scanStep_none_nomatch {content : List String} {rem : String} {i : Nat}
    {e : Option Nat} {bd : List (Nat × Nat)}
    (h : msMatch rem (content.getD i "") = false) :
    scanStep content rem i ⟨none, e, bd⟩ = ⟨none, e, bd⟩ := by
  unfold scanStep
  rw [h]
  simp

theorem scanStep_none_match {content : List String} {rem : String} {i : Nat}
    {e : Option Nat} {bd : List (Nat × Nat)}
    (h : msMatch rem (content.getD i "") = true) :
    scanStep content rem i ⟨none, e, bd⟩ =
      ⟨some (backscanStart content i), some i, bd⟩ := by
  unfold scanStep
  rw [h]
  simp

theorem scanStep_open_close {content : List String} {rem : String} {i s : Nat}
    {e : Option Nat} {bd : List (Nat × Nat)}
    (h : closesBlock (content.getD i "") = true) :
    scanStep content rem i ⟨some s, e, bd⟩ = ⟨none, none, dictInsert bd s i⟩ := by
  unfold scanStep
  rw [h]
  simp

theorem scanStep_open_cont {content : List String} {rem : String} {i s : Nat}
    {e : Option Nat} {bd : List (Nat × Nat)}
    (h : closesBlock (content.getD i "") = false) :
    scanStep content rem i ⟨some s, e, bd⟩ = ⟨some s, some i, bd⟩ := by
  unfold scanStep
  rw [h]
  simp

theorem scan_skip (content : List String) (rem : String) :
    ∀ (k f i : Nat) (e : Option Nat) (bd : List (Nat × Nat)),
      (∀ j, i ≤ j → j < i + k → msMatch rem (content.getD j "") = false) →
      scanAux content rem (k + f) i ⟨none, e, bd⟩ =
        scanAux content rem f (i + k) ⟨none, e, bd⟩ := by
  intro k
  induction k with
  | zero => intro f i e bd _; simp
  | succ n ih =>
    intro f i e bd h
    have harith : n + 1 + f = (n + f) + 1 := by omega
    rw [harith, scanAux_succ,
      scanStep_none_nomatch (h i (le_refl i) (by omega)),
      ih f (i + 1) e bd (fun j hj1 hj2 => h j (by omega) (by omega))]
    congr 1
    omega

theorem scan_open (content : List String) (rem : String) :
    ∀ (k f i s : Nat) (bd : List (Nat × Nat)),
      (∀ j, i ≤ j → j < i + k → closesBlock (content.getD j "") = false) →
      scanAux content rem (k + f) i ⟨some s, some (i - 1), bd⟩ =
        scanAux content rem f (i + k) ⟨some s, some (i + k - 1), bd⟩ := by
  intro k
  induction k with
  | zero => intro f i s bd _; simp
  | succ n ih =>
    intro f i s bd h
    have harith : n + 1 + f = (n + f) + 1 := by omega
    rw [harith, scanAux_succ,
      scanStep_open_cont (h i (le_refl i) (by omega))]
    have h1 : (⟨some s, some i, bd⟩ : ScanState) =
        ⟨some s, some ((i + 1) - 1), bd⟩ := by simp
    rw [h1, ih f (i + 1) s bd (fun j hj1 hj2 => h j (by omega) (by omega))]
    have h2 : i + 1 + n = i + (n + 1) := by omega
    rw [h2]

theorem blockOf_length (beginL mountL endL : String) (cmts conts : List String) :
    (blockOf beginL cmts mountL conts endL).length =
      cmts.length + conts.length + 3 := by
  simp [blockOf]
  omega

theorem getD_middle (P M Q : List String) (j : Nat) (h : j < M.length) :
    (P ++ M ++ Q).getD (P.length + j) "" = M.getD j "" := by
  rw [List.append_assoc, List.getD_append_right _ _ _ _ (by omega),
    Nat.add_sub_cancel_left, List.getD_append _ _ _ _ h]

theorem getD_left (P R : List String) (j : Nat) (h : j < P.length) :
    (P ++ R).getD j "" = P.getD j "" :=
  List.getD_append _ _ _ _ h

theorem getD_mem (l : List String) (j : Nat) (h : j < l.length) :
    l.getD j "" ∈ l := by
  rw [List.getD_eq_getElem _ _ h]
  exact List.getElem_mem h

theorem scan_open_if (content : List String) (rem : String) :
    ∀ (k f i s : Nat) (e0 : Option Nat) (bd : List (Nat × Nat)),
      (∀ j, i ≤ j → j < i + k → closesBlock (content.getD j "") = false) →
      scanAux content rem (k + f) i ⟨some s, e0, bd⟩ =
        scanAux content rem f (i + k)
          ⟨some s, if k = 0 then e0 else some (i + k - 1), bd⟩ := by
  intro k
  induction k with
  | zero => intro f i s e0 bd _; simp
  | succ n ih =>
    intro f i s e0 bd h
    have harith : n + 1 + f = (n + f) + 1 := by omega
    rw [harith, scanAux_succ, scanStep_open_cont (h i (le_refl i) (by omega)),
      ih f (i + 1) s (some i) bd (fun j hj1 hj2 => h j (by omega) (by omega))]
    have he : (if n = 0 then some i else some (i + 1 + n - 1)) =
        some (i + (n + 1) - 1) := by
      by_cases hn : n = 0
      · simp [hn]
      · rw [if_neg hn]
        congr 1
        omega
    rw [he]
    have h2 : i + 1 + n = i + (n + 1) := by omega
    rw [h2]
    simp

theorem scan_block_abstract (content : List String) (rem : String) (p cl kl : Nat)
    (hp : 1 ≤ p)
    (hbeg : msMatch rem (content.getD p "") = false)
    (hbegBreak : backBreak (content.getD p "") = true)
    (hc : ∀ j, p < j → j < p + cl + 1 →
      msMatch rem (content.getD j "") = false ∧ backBreak (content.getD j "") = false)
    (hm : msMatch rem (content.getD (p + cl + 1) "") = true)
    (hk : ∀ j, p + cl + 1 < j → j < p + cl + kl + 2 →
      closesBlock (content.getD j "") = false)
    (he : closesBlock (content.getD (p + cl + kl + 2) "") = true) :
    ∀ (f : Nat) (bd : List (Nat × Nat)),
      scanAux content rem (cl + kl + 3 + f) p ⟨none, none, bd⟩ =
        scanAux content rem f (p + cl + kl + 3)
          ⟨none, none, dictInsert bd p (p + cl + kl + 2)⟩ := by
  intro f bd
  have h1 : cl + kl + 3 + f = (1 + cl) + (((kl + 1) + f) + 1) := by omega
  rw [h1, scan_skip content rem (1 + cl) (((kl + 1) + f) + 1) p none bd ?hskip]
  case hskip =>
    intro j hj1 hj2
    rcases Nat.eq_or_lt_of_le hj1 with heq | hlt
    · rw [← heq]; exact hbeg
    · exact (hc j hlt (by omega)).1
  rw [show p + (1 + cl) = p + cl + 1 by omega, scanAux_succ]
  rw [scanStep_none_match (by exact hm)]
  have hback : backscanStart content (p + cl + 1) = p :=
    backscanStart_exact hp hbegBreak
      (fun t ht1 ht2 => (hc t ht1 (by omega)).2) (by omega)
  rw [hback]
  rw [show (kl + 1) + f = kl + (f + 1) by omega]
  rw [scan_open_if content rem kl (f + 1) (p + cl + 1 + 1) p (some (p + cl + 1)) bd
    (fun j hj1 hj2 => hk j (by omega) (by omega))]
  rw [scanAux_succ]
  rw [scanStep_open_close (by rw [show p + cl + 1 + 1 + kl = p + cl + kl + 2 by omega]; exact he)]
  rw [show p + cl + 1 + 1 + kl = p + cl + kl + 2 by omega,
    show p + cl + kl + 2 + 1 = p + cl + kl + 3 by omega]

/-! ### Index access into a well-formed block -/

theorem blockOf_getD_zero (beginL mountL endL : String) (cmts conts : List String) :
    (blockOf beginL cmts mountL conts endL).getD 0 "" = beginL := rfl

theorem blockOf_getD_cmts (beginL mountL endL : String) (cmts conts : List String)
    (j : Nat) (hj : j < cmts.length) :
    (blockOf beginL cmts mountL conts endL).getD (j + 1) "" = cmts.getD j "" := by
  simp only [blockOf, List.getD_cons_succ]
  exact List.getD_append _ _ _ _ hj

theorem blockOf_getD_mount (beginL mountL endL : String) (cmts conts : List String) :
    (blockOf beginL cmts mountL conts endL).getD (cmts.length + 1) "" = mountL := by
  simp only [blockOf, List.getD_cons_succ]
  rw [List.getD_append_right _ _ _ _ (le_refl _), Nat.sub_self]
  rfl

theorem blockOf_getD_conts (beginL mountL endL : String) (cmts conts : List String)
    (j : Nat) (hj : j < conts.length) :
    (blockOf beginL cmts mountL conts endL).getD (cmts.length + 1 + (j + 1)) "" =
      conts.getD j "" := by
  rw [show cmts.length + 1 + (j + 1) = (cmts.length + 1 + j) + 1 by omega]
  simp only [blockOf, List.getD_cons_succ]
  rw [List.getD_append_right _ _ _ _ (by omega),
    show cmts.length + 1 + j - cmts.length = j + 1 by omega, List.getD_cons_succ]
  exact List.getD_append _ _ _ _ hj

theorem blockOf_getD_end (beginL mountL endL : String) (cmts conts : List String) :
    (blockOf beginL cmts mountL conts endL).getD
        (cmts.length + conts.length + 2) "" = endL := by
  rw [show cmts.length + conts.length + 2 = (cmts.length + conts.length + 1) + 1 by omega]
  simp only [blockOf, List.getD_cons_succ]
  rw [List.getD_append_right _ _ _ _ (by omega),
    show cmts.length + conts.length + 1 - cmts.length = conts.length + 1 by omega,
    List.getD_cons_succ, List.getD_append_right _ _ _ _ (le_refl _), Nat.sub_self]
  rfl

theorem swapLines_eq (original : List String) (adding removing : String) :
    swapLines original adding removing =
      if adding.length > 0 then
        deleteSpansRev (finalSpans original removing).reverse original ++
          pySplit adding
      else deleteSpansRev (finalSpans original removing).reverse original := rfl

theorem finalSpans_single_block (P cmts conts Q : List String)
    (beginL mountL endL rem : String)
    (hP : 1 ≤ P.length)
    (hPnm : ∀ l ∈ P, msMatch rem l = false)
    (hbegin : startsTok beginL ['/', '*', ' ', 'B', 'E', 'G'] = true)
    (hcmts : ∀ c ∈ cmts, startsTok c ['/', '*'] = true ∧
      startsTok c ['/', '*', ' ', 'B', 'E', 'G'] = false)
    (hmount : msMatch rem mountL = true)
    (hconts : ∀ c ∈ conts, closesBlock c = false)
    (hend : startsTok endL ['/', '*', ' ', 'E', 'N', 'D'] = true)
    (hQ : ∀ l ∈ Q, msMatch rem l = false) :
    finalSpans (P ++ blockOf beginL cmts mountL conts endL ++ Q) rem =
      [(P.length, P.length + cmts.length + conts.length + 2)] := by
  have hbl : ∀ j, j < cmts.length + conts.length + 3 →
      (P ++ blockOf beginL cmts mountL conts endL ++ Q).getD (P.length + j) "" =
      (blockOf beginL cmts mountL conts endL).getD j "" := by
    intro j hj
    exact getD_middle _ _ _ j (by rw [blockOf_length]; omega)
  have g0 : (P ++ blockOf beginL cmts mountL conts endL ++ Q).getD P.length "" =
      beginL := by
    have h0 := hbl 0 (by omega)
    rw [Nat.add_zero] at h0
    rw [h0, blockOf_getD_zero]
  have hgP : ∀ j, j < P.length →
      (P ++ blockOf beginL cmts mountL conts endL ++ Q).getD j "" = P.getD j "" := by
    intro j hj
    rw [List.append_assoc]
    exact getD_left _ _ j hj
  have hgQ : ∀ j, P.length + cmts.length + conts.length + 3 ≤ j →
      (P ++ blockOf beginL cmts mountL conts endL ++ Q).getD j "" =
        Q.getD (j - (P.length + cmts.length + conts.length + 3)) "" := by
    intro j hj
    have hlen2 : (P ++ blockOf beginL cmts mountL conts endL).length =
        P.length + cmts.length + conts.length + 3 := by
      rw [List.length_append, blockOf_length]
      omega
    rw [List.getD_append_right _ _ _ _ (by omega : (P ++ blockOf beginL cmts mountL conts endL).length ≤ j), hlen2]
  have hlen : (P ++ blockOf beginL cmts mountL conts endL ++ Q).length =
      P.length + (cmts.length + conts.length + 3 + Q.length) := by
    rw [List.length_append, List.length_append, blockOf_length]
    omega
  unfold finalSpans scanAll
  rw [hlen]
  rw [scan_skip _ rem P.length (cmts.length + conts.length + 3 + Q.length) 0 none []
      (fun j _ hj2 => by
        rw [hgP j (by omega)]
        exact hPnm _ (getD_mem P j (by omega)))]
  rw [Nat.zero_add]
  rw [scan_block_abstract _ rem P.length cmts.length conts.length hP
      (by rw [g0]; exact msMatch_eq_false_of_comment (startsTok_two_of_six hbegin))
      (by rw [g0]; exact backBreak_of_begin hbegin)
      (fun j hj1 hj2 => by
        have hj3 : j - P.length - 1 < cmts.length := by omega
        have hgd : (P ++ blockOf beginL cmts mountL conts endL ++ Q).getD j "" =
            cmts.getD (j - P.length - 1) "" := by
          have h1 := hbl (j - P.length) (by omega)
          rw [show P.length + (j - P.length) = j by omega] at h1
          have h2 := blockOf_getD_cmts beginL mountL endL cmts conts
            (j - P.length - 1) hj3
          rw [show j - P.length - 1 + 1 = j - P.length by omega] at h2
          rw [h1, h2]
        rw [hgd]
        have hmem := getD_mem cmts (j - P.length - 1) hj3
        exact ⟨msMatch_eq_false_of_comment (hcmts _ hmem).1,
          backBreak_eq_false_of_comment (hcmts _ hmem).1 (hcmts _ hmem).2⟩)
      (by
        have h1 := hbl (cmts.length + 1) (by omega)
        rw [show P.length + (cmts.length + 1) = P.length + cmts.length + 1 by omega] at h1
        rw [h1, blockOf_getD_mount]
        exact hmount)
      (fun j hj1 hj2 => by
        have hj3 : j - P.length - cmts.length - 2 < conts.length := by omega
        have hgd : (P ++ blockOf beginL cmts mountL conts endL ++ Q).getD j "" =
            conts.getD (j - P.length - cmts.length - 2) "" := by
          have h1 := hbl (j - P.length) (by omega)
          rw [show P.length + (j - P.length) = j by omega] at h1
          have h2 := blockOf_getD_conts beginL mountL endL cmts conts
            (j - P.length - cmts.length - 2) hj3
          rw [show cmts.length + 1 + (j - P.length - cmts.length - 2 + 1) =
            j - P.length by omega] at h2
          rw [h1, h2]
        rw [hgd]
        exact hconts _ (getD_mem conts (j - P.length - cmts.length - 2) hj3))
      (by
        have h1 := hbl (cmts.length + conts.length + 2) (by omega)
        rw [show P.length + (cmts.length + conts.length + 2) =
          P.length + cmts.length + conts.length + 2 by omega] at h1
        rw [h1, blockOf_getD_end]
        exact closesBlock_of_end hend)
      Q.length []]
  rw [show (Q.length : Nat) = Q.length + 0 by omega]
  rw [scan_skip _ rem Q.length 0 (P.length + cmts.length + conts.length + 3)
      none (dictInsert [] P.length (P.length + cmts.length + conts.length + 2))
      (fun j hj1 hj2 => by
        rw [hgQ j hj1]
        exact hQ _ (getD_mem Q (j - (P.length + cmts.length + conts.length + 3))
          (by omega)))]
  rw [scanAux_zero]
  simp [dictInsert]

theorem swapLines_single_block (P cmts conts Q : List String)
    (beginL mountL endL rem adding : String)
    (hP : 1 ≤ P.length)
    (hPnm : ∀ l ∈ P, msMatch rem l = false)
    (hbegin : startsTok beginL ['/', '*', ' ', 'B', 'E', 'G'] = true)
    (hcmts : ∀ c ∈ cmts, startsTok c ['/', '*'] = true ∧
      startsTok c ['/', '*', ' ', 'B', 'E', 'G'] = false)
    (hmount : msMatch rem mountL = true)
    (hconts : ∀ c ∈ conts, closesBlock c = false)
    (hend : startsTok endL ['/', '*', ' ', 'E', 'N', 'D'] = true)
    (hQ : ∀ l ∈ Q, msMatch rem l = false) :
    swapLines (P ++ blockOf beginL cmts mountL conts endL ++ Q) adding rem =
      (P ++ Q) ++ (if adding.length > 0 then pySplit adding else []) := by
  rw [swapLines_eq,
    finalSpans_single_block P cmts conts Q beginL mountL endL rem
      hP hPnm hbegin hcmts hmount hconts hend hQ]
  have hdel : deleteSpansRev
      [(P.length, P.length + cmts.length + conts.length + 2)].reverse
      (P ++ blockOf beginL cmts mountL conts endL ++ Q) = P ++ Q := by
    show delSpan (P ++ blockOf beginL cmts mountL conts endL ++ Q) P.length
      (P.length + cmts.length + conts.length + 2) = P ++ Q
    unfold delSpan
    rw [Nat.max_eq_left (by omega)]
    have htake : (P ++ blockOf beginL cmts mountL conts endL ++ Q).take P.length
        = P := by
      rw [List.append_assoc, List.take_left]
    have hlen2 : (P ++ blockOf beginL cmts mountL conts endL).length =
        P.length + cmts.length + conts.length + 3 := by
      rw [List.length_append, blockOf_length]
      omega
    have hdrop : (P ++ blockOf beginL cmts mountL conts endL ++ Q).drop
        (P.length + cmts.length + conts.length + 2 + 1) = Q := by
      rw [show P.length + cmts.length + conts.length + 2 + 1 =
        (P ++ blockOf beginL cmts mountL conts endL).length from by omega]
      exact List.drop_left _ _
    rw [htake, hdrop]
  rw [hdel]
  by_cases hadd : adding.length > 0
  · rw [if_pos hadd, if_pos hadd]
  · rw [if_neg hadd, if_neg hadd, List.append_nil]

/-! ### Invariants of the boneyard bookkeeping -/

theorem concat_last_eq {α : Type} {l l' : List α} {a b : α}
    (h : l ++ [a] = l' ++ [b]) : a = b := by
  have h1 := congrArg List.getLast? h
  rw [List.getLast?_append, List.getLast?_append] at h1
  simpa using h1

theorem dictInsert_not_mem {bd : List (Nat × Nat)} {s e : Nat}
    (h : ∀ p ∈ bd, p.1 ≠ s) : dictInsert bd s e = bd ++ [(s, e)] := by
  unfold dictInsert
  have hany : bd.any (fun p => p.1 = s) = false := by
    rw [List.any_eq_false]
    intro p hp
    simp [h p hp]
  rw [hany]
  simp

theorem dictInsert_last {pre : List (Nat × Nat)} {s e0 e : Nat}
    (hk : ∀ p ∈ pre, p.1 ≠ s) :
    dictInsert (pre ++ [(s, e0)]) s e = pre ++ [(s, e)] := by
  unfold dictInsert
  have hany : (pre ++ [(s, e0)]).any (fun p => p.1 = s) = true := by
    rw [List.any_eq_true]
    exact ⟨(s, e0), by simp, by simp⟩
  rw [hany]
  simp only [if_true, List.map_append]
  congr 1
  · have : ∀ p ∈ pre, (if p.1 = s then ((s, e) : Nat × Nat) else p) = p :=
      fun p hp => if_neg (hk p hp)
    rw [List.map_congr_left this]
    simp
  · simp

theorem record_props {bd : List (Nat × Nat)} {i s e : Nat}
    (hk : KeysInc bd)
    (hwf : ∀ se ∈ bd, se.1 ≤ se.2 ∧ se.2 < i)
    (hlast : ∀ pre lp, bd = pre ++ [lp] → lp.1 ≤ s)
    (hse : s ≤ e) (hie : i ≤ e + 1) :
    KeysInc (dictInsert bd s e) ∧
    (∀ se ∈ dictInsert bd s e, se.1 ≤ se.2 ∧ se.2 < e + 1) ∧
    (∀ k, Covered bd k → Covered (dictInsert bd s e) k) ∧
    (∀ k, s ≤ k → k ≤ e → Covered (dictInsert bd s e) k) ∧
    (∀ pre lp, dictInsert bd s e = pre ++ [lp] → lp = (s, e)) := by
  rcases List.eq_nil_or_concat bd with hnil | ⟨pre, lst, hconcat⟩
  · subst hnil
    rw [dictInsert_not_mem (by simp)]
    refine ⟨?_, ?_, ?_, ?_, ?_⟩
    · simp [KeysInc]
    · intro se hse2
      simp at hse2
      subst hse2
      exact ⟨hse, by omega⟩
    · intro k hc
      obtain ⟨se, hmem, _, _⟩ := hc
      simp at hmem
    · intro k h1 h2
      exact ⟨(s, e), by simp, h1, h2⟩
    · intro pre lp h
      have h2 : ([] : List (Nat × Nat)) ++ [(s, e)] = pre ++ [lp] := by simpa using h
      exact (concat_last_eq h2).symm
  · rw [List.concat_eq_append] at hconcat
    have hlast1 : lst.1 ≤ s := hlast pre lst hconcat
    have hk' : KeysInc pre ∧ ∀ p ∈ pre, p.1 < lst.1 := by
      rw [hconcat] at hk
      unfold KeysInc at hk
      rw [List.pairwise_append] at hk
      exact ⟨hk.1, fun p hp => hk.2.2 p hp lst (by simp)⟩
    by_cases hsl : s = lst.1
    · obtain ⟨l1, l2⟩ := lst
      simp only at hlast1 hk'
      subst hsl
      rw [hconcat, dictInsert_last (fun p hp => by have := hk'.2 p hp; omega)]
      have hl2 : l2 < i := (hwf (s, l2) (by rw [hconcat]; simp)).2
      refine ⟨?_, ?_, ?_, ?_, ?_⟩
      · unfold KeysInc
        rw [List.pairwise_append]
        exact ⟨hk'.1, by simp, fun p hp b hb => by
          simp at hb
          subst hb
          exact hk'.2 p hp⟩
      · intro se hmem
        rcases List.mem_append.mp hmem with hm | hm
        · have := hwf se (by rw [hconcat]; exact List.mem_append.mpr (Or.inl hm))
          omega
        · simp at hm
          subst hm
          exact ⟨hse, by omega⟩
      · intro k hc
        obtain ⟨se, hmem, hc1, hc2⟩ := hc
        rcases List.mem_append.mp hmem with hm | hm
        · exact ⟨se, List.mem_append.mpr (Or.inl hm), hc1, hc2⟩
        · simp at hm
          subst hm
          exact ⟨(s, e), by simp, hc1, by omega⟩
      · intro k h1 h2
        exact ⟨(s, e), by simp, h1, h2⟩
      · intro pre' lp h
        exact (concat_last_eq h).symm
    · have hsl' : lst.1 < s := by omega
      have hne : ∀ p ∈ bd, p.1 ≠ s := by
        intro p hp
        rw [hconcat] at hp
        rcases List.mem_append.mp hp with hm | hm
        · have := hk'.2 p hm
          omega
        · simp at hm
          subst hm
          omega
      have hlt : ∀ p ∈ bd, p.1 < s := by
        intro p hp
        rw [hconcat] at hp
        rcases List.mem_append.mp hp with hm | hm
        · have := hk'.2 p hm
          omega
        · simp at hm
          subst hm
          omega
      rw [dictInsert_not_mem hne]
      refine ⟨?_, ?_, ?_, ?_, ?_⟩
      · unfold KeysInc
        rw [List.pairwise_append]
        exact ⟨hk, by simp, fun p hp b hb => by
          simp at hb
          subst hb
          exact hlt p hp⟩
      · intro se hmem
        rcases List.mem_append.mp hmem with hm | hm
        · have := hwf se hm
          omega
        · simp at hm
          subst hm
          exact ⟨hse, by omega⟩
      · intro k hc
        obtain ⟨se, hmem, hc1, hc2⟩ := hc
        exact ⟨se, List.mem_append.mpr (Or.inl hmem), hc1, hc2⟩
      · intro k h1 h2
        exact ⟨(s, e), by simp, h1, h2⟩
      · intro pre' lp h
        exact (concat_last_eq h).symm

theorem GI_init (content : List String) (rem : String) :
    GI content rem 0 ⟨none, none, []⟩ := by
  refine ⟨?_, ?_, ?_, ?_, ?_⟩
  · simp [KeysInc]
  · intro se hse
    simp at hse
  · intro pre lp hbd
    exact absurd hbd.symm (List.append_ne_nil_of_right_ne_nil pre (by simp))
  · intro s hs
    simp at hs
  · intro k hk _
    omega

theorem GI_step {content : List String} {rem : String} {i : Nat} {st : ScanState}
    (h : GI content rem i st) : GI content rem (i + 1) (scanStep content rem i st) := by
  obtain ⟨hkeys, hwf, hlastw, hopen, hcov⟩ := h
  obtain ⟨s?, e?, bd⟩ := st
  simp only at hkeys hwf hlastw hopen hcov
  cases s? with
  | none =>
    by_cases hm : msMatch rem (content.getD i "") = true
    · rw [scanStep_none_match hm]
      have hble := backscanStart_le content i
      refine ⟨hkeys, ?_, hlastw, ?_, ?_⟩
      · intro se hse
        have := hwf se hse
        omega
      · intro s hs
        simp only [Option.some.injEq] at hs
        subst hs
        refine ⟨by simp, by omega, by omega, ⟨i, by omega, by omega, hm⟩, ?_⟩
        intro pre lp hbd
        dsimp only at hbd
        obtain ⟨m, hm1, hm2, hm3⟩ := hlastw pre lp hbd
        have hm4 : lp.2 < i := (hwf lp (by rw [hbd]; simp)).2
        have := backscanStart_ge hm3 (by omega : m < i)
        omega
      · intro k hk1 hk2
        rcases Nat.lt_or_ge k i with hlt | hge
        · rcases hcov k hlt hk2 with hc | ⟨s, hs, _⟩
          · exact Or.inl hc
          · simp at hs
        · have hki : i = k := by omega
          subst hki
          exact Or.inr ⟨backscanStart content i, by simp, hble⟩
    · rw [scanStep_none_nomatch (by simpa using hm)]
      refine ⟨hkeys, ?_, hlastw, ?_, ?_⟩
      · intro se hse
        have := hwf se hse
        omega
      · intro s hs
        simp at hs
      · intro k hk1 hk2
        rcases Nat.lt_or_ge k i with hlt | hge
        · rcases hcov k hlt hk2 with hc | ⟨s, hs, _⟩
          · exact Or.inl hc
          · simp at hs
        · have hki : i = k := by omega
          subst hki
          exact absurd hk2 hm
  | some s =>
    obtain ⟨hend, hi1, hsi, hwit, hlastle⟩ := hopen s rfl
    by_cases hcl : closesBlock (content.getD i "") = true
    · rw [scanStep_open_close hcl]
      obtain ⟨hk2, hwf2, hcovp, hcovn, hlp⟩ :=
        record_props hkeys hwf hlastle (by omega : s ≤ i) (by omega : i ≤ i + 1)
      refine ⟨hk2, hwf2, ?_, ?_, ?_⟩
      · intro pre lp hbd
        have hlpe := hlp pre lp hbd
        subst hlpe
        obtain ⟨m, hm1, hm2, hm3⟩ := hwit
        exact ⟨m, by omega, by omega, backBreak_of_msMatch hm3⟩
      · intro s' hs'
        simp at hs'
      · intro k hk1 hk2
        rcases Nat.lt_or_ge k i with hlt | hge
        · rcases hcov k hlt hk2 with hc | ⟨s', hs', hsk⟩
          · exact Or.inl (hcovp k hc)
          · simp only [Option.some.injEq] at hs'
            subst hs'
            exact Or.inl (hcovn k hsk (by omega))
        · have hki : i = k := by omega
          subst hki
          exact Or.inl (hcovn i (by omega) (le_refl i))
    · rw [scanStep_open_cont (by simpa using hcl)]
      refine ⟨hkeys, ?_, hlastw, ?_, ?_⟩
      · intro se hse
        have := hwf se hse
        omega
      · intro s' hs'
        simp only [Option.some.injEq] at hs'
        subst hs'
        refine ⟨by simp, by omega, by omega, ?_, hlastle⟩
        obtain ⟨m, hm1, hm2, hm3⟩ := hwit
        exact ⟨m, hm1, by omega, hm3⟩
      · intro k hk1 hk2
        rcases Nat.lt_or_ge k i with hlt | hge
        · rcases hcov k hlt hk2 with hc | ⟨s', hs', hsk⟩
          · exact Or.inl hc
          · simp only [Option.some.injEq] at hs'
            subst hs'
            exact Or.inr ⟨s, by simp, by omega⟩
        · have hki : i = k := by omega
          subst hki
          exact Or.inr ⟨s, by simp, by omega⟩

theorem GI_run {content : List String} {rem : String} :
    ∀ (fuel i : Nat) (st : ScanState), GI content rem i st →
      GI content rem (i + fuel) (scanAux content rem fuel i st) := by
  intro fuel
  induction fuel with
  | zero => intro i st h; simpa using h
  | succ n ih =>
    intro i st h
    rw [scanAux_succ]
    have := ih (i + 1) _ (GI_step h)
    rwa [show i + 1 + n = i + (n + 1) by omega] at this

theorem GI_final (content : List String) (rem : String) :
    GI content rem content.length (scanAll content rem) := by
  have := GI_run content.length 0 ⟨none, none, []⟩ (GI_init content rem)
  rwa [Nat.zero_add] at this

theorem getD_take {α : Type} (l : List α) (d : α) (n k : Nat) (h : k < n) :
    (l.take n).getD k d = l.getD k d := by
  rw [List.getD_eq_getElem?_getD, List.getD_eq_getElem?_getD, List.getElem?_take,
    if_pos h]

theorem getD_drop {α : Type} (l : List α) (d : α) (n k : Nat) :
    (l.drop n).getD k d = l.getD (n + k) d := by
  rw [List.getD_eq_getElem?_getD, List.getD_eq_getElem?_getD, List.getElem?_drop]

theorem finalSpans_of_none (content : List String) (rem : String)
    (hs : (scanAll content rem).start? = none) :
    finalSpans content rem = (scanAll content rem).boneyard := by
  unfold finalSpans
  rw [hs]

theorem finalSpans_of_open (content : List String) (rem : String) (s e : Nat)
    (hs : (scanAll content rem).start? = some s)
    (he : (scanAll content rem).end? = some e) :
    finalSpans content rem =
      if s ≠ e then dictInsert (scanAll content rem).boneyard s e
      else (scanAll content rem).boneyard := by
  unfold finalSpans
  rw [hs, he]

theorem finalSpans_keys (content : List String) (rem : String) :
    KeysInc (finalSpans content rem) ∧
    ∀ se ∈ finalSpans content rem, se.1 ≤ se.2 := by
  obtain ⟨hkeys, hwf, hlastw, hopen, hcov⟩ := GI_final content rem
  rcases hs : (scanAll content rem).start? with _ | s
  · rw [finalSpans_of_none content rem hs]
    exact ⟨hkeys, fun se hse => (hwf se hse).1⟩
  · obtain ⟨hend, hi1, hsi, hwit, hlastle⟩ := hopen s hs
    rcases he : (scanAll content rem).end? with _ | e
    · rw [hend] at he
      simp at he
    · have hee : e = content.length - 1 := by
        rw [hend] at he
        simpa using he.symm
      have hfs := finalSpans_of_open content rem s e hs he
      by_cases hse : s ≠ e
      · rw [hfs, if_pos hse]
        obtain ⟨hk2, hwf2, _, _, _⟩ :=
          @record_props _ content.length s e hkeys hwf hlastle (by omega) (by omega)
        exact ⟨hk2, fun se2 hse2 => (hwf2 se2 hse2).1⟩
      · rw [hfs, if_neg hse]
        exact ⟨hkeys, fun se2 hse2 => (hwf se2 hse2).1⟩

theorem finalSpans_covers (content : List String) (rem : String)
    (hnb : ∀ s e, (scanAll content rem).start? = some s →
      (scanAll content rem).end? = some e → s ≠ e) :
    ∀ k, k < content.length → msMatch rem (content.getD k "") = true →
      Covered (finalSpans content rem) k := by
  obtain ⟨hkeys, hwf, hlastw, hopen, hcov⟩ := GI_final content rem
  intro k hk hmk
  rcases hs : (scanAll content rem).start? with _ | s
  · rw [finalSpans_of_none content rem hs]
    rcases hcov k hk hmk with hc | ⟨s, hs2, _⟩
    · exact hc
    · rw [hs] at hs2
      simp at hs2
  · obtain ⟨hend, hi1, hsi, hwit, hlastle⟩ := hopen s hs
    have hse : s ≠ content.length - 1 := hnb s (content.length - 1) hs hend
    have hfs : finalSpans content rem =
        dictInsert (scanAll content rem).boneyard s (content.length - 1) := by
      rw [finalSpans_of_open content rem s (content.length - 1) hs hend,
        if_pos hse]
    rw [hfs]
    obtain ⟨_, _, hcovp, hcovn, _⟩ :=
      @record_props _ content.length s (content.length - 1) hkeys hwf hlastle
        (by omega) (by omega)
    rcases hcov k hk hmk with hc | ⟨s2, hs2, hs2k⟩
    · exact hcovp k hc
    · rw [hs] at hs2
      simp only [Option.some.injEq] at hs2
      subst hs2
      exact hcovn k hs2k (by omega)

theorem survivors :
    ∀ (spans : List (Nat × Nat)) (l : List String),
      List.Pairwise (fun a b => b.1 < a.1) spans →
      ∀ x ∈ deleteSpansRev spans l,
        ∃ k, k < l.length ∧ l.getD k "" = x ∧
          ∀ se ∈ spans, ¬(se.1 ≤ k ∧ k ≤ se.2) := by
  intro spans
  induction spans with
  | nil =>
    intro l _ x hx
    have hd0 : deleteSpansRev ([] : List (Nat × Nat)) l = l := rfl
    rw [hd0] at hx
    obtain ⟨k, hk, hkx⟩ := List.getElem_of_mem hx
    exact ⟨k, hk, by rw [List.getD_eq_getElem _ _ hk, hkx], by simp⟩
  | cons hd tl ih =>
    intro l hp x hx
    have hstep : deleteSpansRev (hd :: tl) l =
        deleteSpansRev tl (delSpan l hd.1 hd.2) := rfl
    rw [hstep] at hx
    have hp' := List.pairwise_cons.mp hp
    obtain ⟨k1, hk1len, hk1x, hk1un⟩ := ih (delSpan l hd.1 hd.2) hp'.2 x hx
    obtain ⟨s, e⟩ := hd
    simp only at hk1len hk1x hk1un hp'
    by_cases hsl : s ≤ l.length
    · have hlen1 : (delSpan l s e).length =
          min s l.length + (l.length - max (e + 1) s) := by
        unfold delSpan
        rw [List.length_append, List.length_take, List.length_drop]
      by_cases hk1s : k1 < s
      · refine ⟨k1, by omega, ?_, ?_⟩
        · rw [← hk1x]
          unfold delSpan
          rw [List.getD_append _ _ _ _ (by rw [List.length_take]; omega),
            getD_take _ _ _ _ hk1s]
        · intro se hse
          rcases List.mem_cons.mp hse with hm | hm
          · subst hm
            simp only
            omega
          · exact hk1un se hm
      · refine ⟨max (e + 1) s + (k1 - s), by omega, ?_, ?_⟩
        · rw [← hk1x]
          unfold delSpan
          rw [List.getD_append_right _ _ _ _ (by rw [List.length_take]; omega),
            List.length_take, getD_drop]
          congr 1
          omega
        · intro se hse
          rcases List.mem_cons.mp hse with hm | hm
          · subst hm
            simp only
            omega
          · have h1 := hp'.1 se hm
            have h2 := hk1un se hm
            simp only at h1
            omega
    · have hdel : delSpan l s e = l := by
        unfold delSpan
        rw [List.take_of_length_le (by omega), List.drop_eq_nil_of_le (by omega),
          List.append_nil]
      rw [hdel] at hk1len hk1x
      refine ⟨k1, hk1len, hk1x, ?_⟩
      intro se hse
      rcases List.mem_cons.mp hse with hm | hm
      · subst hm
        simp only
        omega
      · exact hk1un se hm

theorem no_match_in_survivors (content : List String) (rem : String)
    (hnb : ∀ s e, (scanAll content rem).start? = some s →
      (scanAll content rem).end? = some e → s ≠ e) :
    ∀ x ∈ deleteSpansRev (finalSpans content rem).reverse content,
      msMatch rem x = false := by
  intro x hx
  have hkeys := (finalSpans_keys content rem).1
  have hrev : List.Pairwise (fun a b => b.1 < a.1)
      (finalSpans content rem).reverse := by
    rw [List.pairwise_reverse]
    exact hkeys
  obtain ⟨k, hk, hkx, hun⟩ := survivors _ content hrev x hx
  by_contra hmx
  rw [Bool.not_eq_false] at hmx
  have hcov := finalSpans_covers content rem hnb k hk (by rw [hkx]; exact hmx)
  obtain ⟨se, hse, h1, h2⟩ := hcov
  exact hun se (List.mem_reverse.mpr hse) ⟨h1, h2⟩

/-! ### Facts about the comment word-wrap -/

theorem isPySpace_space : isPySpace ' ' = true := rfl

theorem ne_space_of_not_pySpace {c : Char} (h : isPySpace c = false) : c ≠ ' ' := by
  intro hc
  rw [hc] at h
  exact absurd h (by decide)

theorem dropWhile_no_ws {l : List Char} (h : l = [] ∨ isPySpace (l.getD 0 'x') = false) :
    l.dropWhile isPySpace = l := by
  cases l with
  | nil => rfl
  | cons a as =>
    rcases h with h | h
    · simp at h
    · simp only [List.getD_cons_zero] at h
      rw [List.dropWhile_cons, h]
      simp

theorem getD_reverse_zero {l : List Char} (h : l ≠ []) :
    l.reverse.getD 0 'x' = l.getD (l.length - 1) 'x' := by
  have h1 : 0 < l.length := List.length_pos.mpr h
  have h0r : 0 < l.reverse.length := by simpa using h1
  rw [List.getD_eq_getElem _ _ h0r, List.getD_eq_getElem _ _ (by omega),
    List.getElem_reverse]
  simp

theorem pyStrip_no_ws {l : List Char}
    (h0 : l = [] ∨ isPySpace (l.getD 0 'x') = false)
    (h1 : l = [] ∨ isPySpace (l.getD (l.length - 1) 'x') = false) :
    pyStrip l = l := by
  rcases h0 with hnil | h0
  · subst hnil
    rfl
  · unfold pyStrip
    rw [dropWhile_no_ws (Or.inr h0)]
    by_cases hn : l = []
    · subst hn
      rfl
    · rcases h1 with h1 | h1
      · exact absurd h1 hn
      · rw [dropWhile_no_ws (Or.inr (by rw [getD_reverse_zero hn]; exact h1)),
          List.reverse_reverse]

theorem pyStrip_cons_space (l : List Char) : pyStrip (' ' :: l) = pyStrip l := by
  unfold pyStrip
  rw [List.dropWhile_cons, if_pos (by decide)]

theorem scanBackAux_no_space {extra : List Char} :
    ∀ k, (∀ i, 48 < i → i ≤ 48 + k → extra.getD i 'x' ≠ ' ') →
      scanBackAux extra k = 60 := by
  intro k
  induction k with
  | zero => intro _; rfl
  | succ n ih =>
    intro h
    unfold scanBackAux
    rw [if_neg (h (48 + (n + 1)) (by omega) (by omega))]
    exact ih (fun i h1 h2 => h i h1 (by omega))

theorem scanBackAux_hit {extra : List Char} :
    ∀ k j, 48 < j → j ≤ 48 + k → extra.getD j 'x' = ' ' →
      (∀ i, j < i → i ≤ 48 + k → extra.getD i 'x' ≠ ' ') →
      scanBackAux extra k = j := by
  intro k
  induction k with
  | zero => intro j h1 h2 _ _; omega
  | succ n ih =>
    intro j h1 h2 hj hno
    unfold scanBackAux
    by_cases hje : j = 48 + (n + 1)
    · rw [hje] at hj
      rw [if_pos hj]
      omega
    · rw [if_neg (hno (48 + (n + 1)) (by omega) (by omega))]
      exact ih j h1 (by omega) hj (fun i hi1 hi2 => hno i hi1 (by omega))

theorem tabWhile_succ (f : Nat) (extra : List Char) (ctr : Nat) (parm : String) :
    tabWhile (f + 1) extra ctr parm =
      if extra.length = 0 then parm
      else if extra.length > 60 then
        tabWhile f (wrapChunk extra).2 (ctr + 1) (parm ++ emitC ctr (wrapChunk extra).1)
      else parm ++ emitC ctr extra := rfl

theorem str_empty_append (s : String) : "" ++ s = s := by
  apply String.ext
  rw [String.data_append]
  rfl

theorem two_comment_lines (x y : List Char) :
    ("" ++ emitC 1 x) ++ emitC 2 y =
      "/* C1:" ++ x.asString ++ " */\n/* C2:" ++ y.asString ++ " */\n" := by
  rw [str_empty_append]
  unfold emitC
  rw [show ("/* C1:" : String) = "/* C" ++ toString (1 : Nat) ++ ":" from rfl]
  rw [show (" */\n/* C2:" : String) = " */\n" ++ ("/* C" ++ toString (2 : Nat) ++ ":") from rfl]
  simp [String.append_assoc]

/-! ### Facts about the directive matcher -/

theorem eatId_append_self : ∀ (p cs : List Char), '$' ∉ p →
    eatId p (p ++ cs) = some cs := by
  intro p
  induction p with
  | nil => intro cs _; rfl
  | cons a ps ih =>
    intro cs hnd
    have hstep : eatId (a :: ps) (a :: (ps ++ cs)) =
        if a = '$' then none
        else if a = '.' ∨ a = a then eatId ps (ps ++ cs) else none := rfl
    rw [List.cons_append, hstep,
      if_neg (fun h => hnd (List.mem_cons.mpr (Or.inl h.symm))),
      if_pos (Or.inr rfl)]
    exact ih cs (fun h => hnd (List.mem_cons_of_mem a h))

theorem eatId_dollar : ∀ (p cs : List Char), '$' ∈ p → eatId p cs = none := by
  intro p
  induction p with
  | nil => intro cs h; exact absurd h (List.not_mem_nil _)
  | cons a ps ih =>
    intro cs h
    cases cs with
    | nil => rfl
    | cons c cs2 =>
      have hstep : eatId (a :: ps) (c :: cs2) =
          if a = '$' then none
          else if a = '.' ∨ c = a then eatId ps cs2 else none := rfl
      rw [hstep]
      by_cases ha : a = '$'
      · rw [if_pos ha]
      · rw [if_neg ha]
        have hp : '$' ∈ ps := by
          rcases List.mem_cons.mp h with h1 | h1
          · exact absurd h1.symm ha
          · exact h1
        by_cases hm : a = '.' ∨ c = a
        · rw [if_pos hm]
          exact ih cs2 hp
        · rw [if_neg hm]

theorem eatLit_sound : ∀ (lit cs rest : List Char),
    eatLit lit cs = some rest → cs = lit ++ rest := by
  intro lit
  induction lit with
  | nil =>
    intro cs rest h
    have h2 : cs = rest := by injection h
    rw [h2]
    rfl
  | cons p ps ih =>
    intro cs rest h
    cases cs with
    | nil => exact absurd h (by simp [eatLit])
    | cons c cs2 =>
      have hstep : eatLit (p :: ps) (c :: cs2) =
          if c = p then eatLit ps cs2 else none := rfl
      rw [hstep] at h
      by_cases hc : c = p
      · rw [if_pos hc] at h
        rw [List.cons_append, hc, ih cs2 rest h]
      · rw [if_neg hc] at h
        exact absurd h (by simp)

theorem eatId_sound : ∀ (p cs rest : List Char),
    (∀ a ∈ p, a ≠ '.' ∧ a ≠ '$') → eatId p cs = some rest → cs = p ++ rest := by
  intro p
  induction p with
  | nil =>
    intro cs rest _ h
    have h2 : cs = rest := by injection h
    rw [h2]
    rfl
  | cons a ps ih =>
    intro cs rest hm h
    cases cs with
    | nil => exact absurd h (by simp [eatId])
    | cons c cs2 =>
      have ha := hm a (List.mem_cons_self a ps)
      have hstep : eatId (a :: ps) (c :: cs2) =
          if a = '$' then none
          else if a = '.' ∨ c = a then eatId ps cs2 else none := rfl
      rw [hstep, if_neg ha.2] at h
      by_cases hx : a = '.' ∨ c = a
      · rw [if_pos hx] at h
        have hca : c = a := hx.resolve_left ha.1
        rw [List.cons_append, hca,
          ih cs2 rest (fun b hb => hm b (List.mem_cons_of_mem a hb)) h]
      · rw [if_neg hx] at h
        exact absurd h (by simp)

theorem msMatch_dollar (id line : String) (h : '$' ∈ (pyUpper id).data) :
    msMatch id line = false := by
  unfold msMatch
  split
  · rfl
  · split
    · rfl
    · split
      · split
        · rfl
        · split
          · rfl
          · rename_i cs3 heq3
            rw [eatId_dollar _ cs3 h]
      · rfl

theorem msMatch_carries (id line : String)
    (hm : ∀ a ∈ (pyUpper id).data, a ≠ '.' ∧ a ≠ '$')
    (h : msMatch id line = true) :
    ∃ pre rest : List Char, line.data = pre ++ (pyUpper id).data ++ rest := by
  unfold msMatch at h
  split at h
  · exact absurd h (by simp)
  · rename_i cs1 heq1
    split at h
    · exact absurd h (by simp)
    · rename_i c crest
      split at h
      · split at h
        · exact absurd h (by simp)
        · rename_i cs2 heq2
          split at h
          · exact absurd h (by simp)
          · rename_i cs3 heq3
            split at h
            · exact absurd h (by simp)
            · rename_i cs4 heq4
              have e0 : line.data =
                  List.takeWhile isPySpace line.data ++ eatWs line.data :=
                (List.takeWhile_append_dropWhile isPySpace line.data).symm
              have e1 : c :: crest =
                  List.takeWhile isPySpace (c :: crest) ++ eatWs (c :: crest) :=
                (List.takeWhile_append_dropWhile isPySpace (c :: crest)).symm
              have e2 : cs2 = List.takeWhile isPySpace cs2 ++ eatWs cs2 :=
                (List.takeWhile_append_dropWhile isPySpace cs2).symm
              have s0 : eatWs line.data = "MOUNT".data ++ (c :: crest) :=
                eatLit_sound _ _ _ heq1
              have s1 : eatWs (c :: crest) = "FILESYSTEM(".data ++ cs2 :=
                eatLit_sound _ _ _ heq2
              have s2 : eatWs cs2 = ['\''] ++ cs3 :=
                eatLit_sound _ _ _ heq3
              have s3 : cs3 = (pyUpper id).data ++ cs4 :=
                eatId_sound _ _ _ hm heq4
              have E2 : cs2 = List.takeWhile isPySpace cs2 ++
                  (['\''] ++ ((pyUpper id).data ++ cs4)) :=
                e2.trans (congrArg (List.takeWhile isPySpace cs2 ++ ·)
                  (s2.trans (congrArg (['\''] ++ ·) s3)))
              have E1 : c :: crest = List.takeWhile isPySpace (c :: crest) ++
                  ("FILESYSTEM(".data ++ (List.takeWhile isPySpace cs2 ++
                    (['\''] ++ ((pyUpper id).data ++ cs4)))) :=
                e1.trans (congrArg (List.takeWhile isPySpace (c :: crest) ++ ·)
                  (s1.trans (congrArg ("FILESYSTEM(".data ++ ·) E2)))
              have E0 : line.data = List.takeWhile isPySpace line.data ++
                  ("MOUNT".data ++ (List.takeWhile isPySpace (c :: crest) ++
                    ("FILESYSTEM(".data ++ (List.takeWhile isPySpace cs2 ++
                      (['\''] ++ ((pyUpper id).data ++ cs4)))))) :=
                e0.trans (congrArg (List.takeWhile isPySpace line.data ++ ·)
                  (s0.trans (congrArg ("MOUNT".data ++ ·) E1)))
              refine ⟨List.takeWhile isPySpace line.data ++
                ("MOUNT".data ++ (List.takeWhile isPySpace (c :: crest) ++
                  ("FILESYSTEM(".data ++ (List.takeWhile isPySpace cs2 ++
                    ['\''])))), cs4, ?_⟩
              exact E0.trans (by simp [List.append_assoc])
      · exact absurd h (by simp)

theorem msMatch_build (id : String) (hnd : '$' ∉ (pyUpper id).data) :
    msMatch id ("MOUNT FILESYSTEM('" ++ pyUpper id ++ "')") = true := by
  have hdata : ("MOUNT FILESYSTEM('" ++ pyUpper id ++ "')").data =
      'M' :: 'O' :: 'U' :: 'N' :: 'T' :: ' ' :: 'F' :: 'I' :: 'L' :: 'E' :: 'S' ::
      'Y' :: 'S' :: 'T' :: 'E' :: 'M' :: '(' :: '\'' ::
      ((pyUpper id).data ++ ['\'', ')']) := by
    rw [String.data_append, String.data_append]
    rw [show ("MOUNT FILESYSTEM('" : String).data =
      ['M','O','U','N','T',' ','F','I','L','E','S','Y','S','T','E','M','(','\''] from rfl]
    rw [show ("')" : String).data = ['\'', ')'] from rfl]
    simp
  unfold msMatch
  rw [hdata]
  simp only [eatWs, eatLit, List.dropWhile, isPySpace]
  norm_num
  simp only [List.dropWhile, eatLit, eatWs, isPySpace]
  norm_num
  simp only [List.dropWhile, eatLit, isPySpace]
  norm_num
  rw [eatId_append_self _ _ hnd]
  simp [eatLit, eatWs, List.dropWhile, isPySpace]

theorem msMatch_lower (id rest : String) :
    msMatch id ("mount" ++ rest) = false := by
  have hdata : ("mount" ++ rest).data = 'm' :: 'o' :: 'u' :: 'n' :: 't' :: rest.data := by
    rw [String.data_append]
    rfl
  unfold msMatch
  rw [hdata]
  simp [eatWs, eatLit, List.dropWhile, isPySpace]

/-! ### Evaluating the comment builder on one overlong line -/

theorem buildComment_soft_wrap (s : List Char)
    (hlen : s.length = 61) (h50 : s.getD 50 'x' = ' ')
    (hno : ∀ i, i < 61 → i ≠ 50 → isPySpace (s.getD i 'x') = false) :
    buildCommentLines [s.asString] =
      "/* C1:" ++ (s.take 50).asString ++ " */\n/* C2:" ++ (s.drop 51).asString ++
        " */\n" := by
  have hdata : (s.asString).data = s := rfl
  have hstrip : pyStrip s = s :=
    pyStrip_no_ws (Or.inr (hno 0 (by omega) (by omega)))
      (Or.inr (by
        have h60 := hno 60 (by omega) (by omega)
        rw [show s.length - 1 = 60 by omega]
        exact h60))
  have hstop : wrapStopper s = 50 := by
    unfold wrapStopper
    exact scanBackAux_hit 11 50 (by omega) (by omega) h50
      (fun i hi1 hi2 => ne_space_of_not_pySpace (hno i (by omega) (by omega)))
  have hdrop : s.drop 50 = ' ' :: s.drop 51 := by
    rw [List.drop_eq_getElem_cons (show 50 < s.length by omega)]
    congr 1
    rw [← List.getD_eq_getElem s 'x' (show 50 < s.length by omega)]
    exact h50
  have hstripdrop : pyStrip (s.drop 50) = s.drop 51 := by
    rw [hdrop, pyStrip_cons_space]
    apply pyStrip_no_ws
    · right
      rw [getD_drop]
      have h51 := hno 51 (by omega) (by omega)
      rw [show (51 : Nat) + 0 = 51 from rfl]
      exact h51
    · right
      rw [List.length_drop, getD_drop]
      rw [show 51 + (s.length - 51 - 1) = 60 by omega]
      exact hno 60 (by omega) (by omega)
  have hwrapchunk : wrapChunk s = (s.take 50, s.drop 51) := by
    show (s.take (wrapStopper s), pyStrip (s.drop (wrapStopper s))) = _
    rw [hstop, hstripdrop]
  have haccum : tabAccum [] s.asString = s := by
    unfold tabAccum
    rw [if_neg (by simp)]
    rw [show (s.asString).data = s from rfl, hstrip]
  have hstep1 : tabForStep ([], 1, "") s.asString =
      (s.drop 51, 2, "" ++ emitC 1 (s.take 50)) := by
    unfold tabForStep
    rw [haccum, if_pos (show s.length > 60 by omega), hwrapchunk]
  have hfold : [s.asString].foldl tabForStep ([], 1, "") =
      (s.drop 51, 2, "" ++ emitC 1 (s.take 50)) := by
    rw [List.foldl_cons, List.foldl_nil, hstep1]
  have hlend : (s.drop 51).length = 10 := by
    rw [List.length_drop]
    omega
  unfold buildCommentLines
  rw [hfold]
  show tabWhile ((s.drop 51).length + 1) (s.drop 51) 2 ("" ++ emitC 1 (s.take 50)) = _
  rw [hlend, tabWhile_succ,
    if_neg (by rw [hlend]; omega),
    if_neg (by rw [hlend]; omega)]
  exact two_comment_lines (s.take 50) (s.drop 51)

theorem buildComment_hard_wrap (t : List Char)
    (hlen : t.length = 61) (h0 : isPySpace (t.getD 0 'x') = false)
    (hno : ∀ i, 48 ≤ i → i < 61 → isPySpace (t.getD i 'x') = false) :
    buildCommentLines [t.asString] =
      "/* C1:" ++ (t.take 60).asString ++ " */\n/* C2:" ++ (t.drop 60).asString ++
        " */\n" := by
  have hstrip : pyStrip t = t :=
    pyStrip_no_ws (Or.inr h0)
      (Or.inr (by
        have h60 := hno 60 (by omega) (by omega)
        rw [show t.length - 1 = 60 by omega]
        exact h60))
  have hstop : wrapStopper t = 60 := by
    unfold wrapStopper
    exact scanBackAux_no_space 11
      (fun i hi1 hi2 => ne_space_of_not_pySpace (hno i (by omega) (by omega)))
  have hstripdrop : pyStrip (t.drop 60) = t.drop 60 := by
    apply pyStrip_no_ws
    · right
      rw [getD_drop]
      have h60 := hno 60 (by omega) (by omega)
      rw [show (60 : Nat) + 0 = 60 from rfl]
      exact h60
    · right
      rw [List.length_drop, getD_drop]
      rw [show 60 + (t.length - 60 - 1) = 60 by omega]
      exact hno 60 (by omega) (by omega)
  have hwrapchunk : wrapChunk t = (t.take 60, t.drop 60) := by
    show (t.take (wrapStopper t), pyStrip (t.drop (wrapStopper t))) = _
    rw [hstop, hstripdrop]
  have haccum : tabAccum [] t.asString = t := by
    unfold tabAccum
    rw [if_neg (by simp)]
    rw [show (t.asString).data = t from rfl, hstrip]
  have hstep1 : tabForStep ([], 1, "") t.asString =
      (t.drop 60, 2, "" ++ emitC 1 (t.take 60)) := by
    unfold tabForStep
    rw [haccum, if_pos (show t.length > 60 by omega), hwrapchunk]
  have hfold : [t.asString].foldl tabForStep ([], 1, "") =
      (t.drop 60, 2, "" ++ emitC 1 (t.take 60)) := by
    rw [List.foldl_cons, List.foldl_nil, hstep1]
  have hlend : (t.drop 60).length = 1 := by
    rw [List.length_drop]
    omega
  unfold buildCommentLines
  rw [hfold]
  show tabWhile ((t.drop 60).length + 1) (t.drop 60) 2 ("" ++ emitC 1 (t.take 60)) = _
  rw [hlend, tabWhile_succ,
    if_neg (by rw [hlend]; omega),
    if_neg (by rw [hlend]; omega)]
  exact two_comment_lines (t.take 60) (t.drop 60)

theorem noBareTrailing_spec {content : List String} {rem : String}
    (h : noBareTrailing content rem = true) :
    ∀ s e, (scanAll content rem).start? = some s →
      (scanAll content rem).end? = some e → s ≠ e := by
  intro s e hs he
  unfold noBareTrailing at h
  rw [hs, he] at h
  simpa using h

/-! ### The claims -/

/-- Claim C1, counterexample: on the empty buffer, applying `swap_text` twice
with the same well-formed block text is not the same as applying it once —
the reinserted block's BEGIN marker lands at index 0, where the backward walk
(which never examines index 0) cannot absorb it, so the second application
leaves a stray BEGIN line behind. -/
theorem swap_text_idempotence_cex :
    swap_text
      (pySplit (swap_text []
        "/* BEGIN ANSIBLE MANAGED BLOCK 20250101-000000 */\nMOUNT FILESYSTEM('ZFSAGG')\n/* END ANSIBLE MANAGED BLOCK 20250101-000000 */"
        "ZFSAGG"))
      "/* BEGIN ANSIBLE MANAGED BLOCK 20250101-000000 */\nMOUNT FILESYSTEM('ZFSAGG')\n/* END ANSIBLE MANAGED BLOCK 20250101-000000 */"
      "ZFSAGG" ≠
    swap_text []
      "/* BEGIN ANSIBLE MANAGED BLOCK 20250101-000000 */\nMOUNT FILESYSTEM('ZFSAGG')\n/* END ANSIBLE MANAGED BLOCK 20250101-000000 */"
      "ZFSAGG" := by
  decide

/-- Claim C1 (amended): applying the editor a second time with the same
arguments is a no-op whenever the first application left the reinserted
block's lines — a BEGIN-comment, annotation comments, the matching mount
directive, non-closing continuation lines and an END-comment — strictly
below at least one non-matching line: the second scan then finds exactly
the just-inserted block, deletes it as one span, and re-appends the same
lines.  (When the reinserted BEGIN marker lands at index 0 — as on an empty
buffer — the backward walk cannot absorb it and idempotence fails, as the
counterexample shows.) -/
theorem swap_text_idempotence_amended (buffer : List String)
    (adding removing beginL mountL endL : String)
    (P cmts conts : List String)
    (hres : swapLines buffer adding removing =
      P ++ blockOf beginL cmts mountL conts endL)
    (hsplit : pySplit adding = blockOf beginL cmts mountL conts endL)
    (hadd : 0 < adding.length)
    (hP : 1 ≤ P.length)
    (hPnm : ∀ l ∈ P, msMatch removing l = false)
    (hbegin : startsTok beginL ['/', '*', ' ', 'B', 'E', 'G'] = true)
    (hcmts : ∀ c ∈ cmts, startsTok c ['/', '*'] = true ∧
      startsTok c ['/', '*', ' ', 'B', 'E', 'G'] = false)
    (hmount : msMatch removing mountL = true)
    (hconts : ∀ c ∈ conts, closesBlock c = false)
    (hend : startsTok endL ['/', '*', ' ', 'E', 'N', 'D'] = true) :
    swapLines (swapLines buffer adding removing) adding removing =
      swapLines buffer adding removing ∧
    swap_text (swapLines buffer adding removing) adding removing =
      swap_text buffer adding removing := by
  have h1 : swapLines (swapLines buffer adding removing) adding removing =
      swapLines buffer adding removing := by
    rw [hres]
    have h := swapLines_single_block P cmts conts [] beginL mountL endL
      removing adding hP hPnm hbegin hcmts hmount hconts hend
      (fun l hl => absurd hl (List.not_mem_nil l))
    simp only [List.append_nil] at h
    rw [h, if_pos hadd, hsplit]
  exact ⟨h1, by unfold swap_text; rw [h1]⟩

/-- Claim C1, witness. -/
theorem swap_text_idempotence_witness :
    swapLines
      (swapLines ["SET X"]
        "/* BEGIN ANSIBLE MANAGED BLOCK 3 */\nMOUNT FILESYSTEM('WA')\n/* END ANSIBLE MANAGED BLOCK 3 */"
        "WA")
      "/* BEGIN ANSIBLE MANAGED BLOCK 3 */\nMOUNT FILESYSTEM('WA')\n/* END ANSIBLE MANAGED BLOCK 3 */"
      "WA" =
    swapLines ["SET X"]
      "/* BEGIN ANSIBLE MANAGED BLOCK 3 */\nMOUNT FILESYSTEM('WA')\n/* END ANSIBLE MANAGED BLOCK 3 */"
      "WA" :=
  (swap_text_idempotence_amended ["SET X"]
    "/* BEGIN ANSIBLE MANAGED BLOCK 3 */\nMOUNT FILESYSTEM('WA')\n/* END ANSIBLE MANAGED BLOCK 3 */"
    "WA" "/* BEGIN ANSIBLE MANAGED BLOCK 3 */" "MOUNT FILESYSTEM('WA')"
    "/* END ANSIBLE MANAGED BLOCK 3 */" ["SET X"] [] []
    (by decide) (by decide) (by decide) (by decide) (by decide) (by decide)
    (by decide) (by decide) (by decide) (by decide)).1

/-- Claim C2, counterexample: a bare matching directive line at the very last
index of the buffer survives `swap_text` (the still-open single-line span is
not recorded because `remove_starting_at_index == remove_ending_at_index`),
so after inserting the new block the result holds two matching lines, even
though the inserted text holds exactly one. -/
theorem single_block_cex :
    countMatches "ZFSA"
      (swapLines ["MOUNT FILESYSTEM('ZFSA')"]
        "/* BEGIN ANSIBLE MANAGED BLOCK 20250101-000000 */\nMOUNT FILESYSTEM('ZFSA')\n/* END ANSIBLE MANAGED BLOCK 20250101-000000 */"
        "ZFSA") = 2 ∧
    countMatches "ZFSA"
      (pySplit
        "/* BEGIN ANSIBLE MANAGED BLOCK 20250101-000000 */\nMOUNT FILESYSTEM('ZFSA')\n/* END ANSIBLE MANAGED BLOCK 20250101-000000 */") = 1 := by
  refine ⟨by decide, by decide⟩

/-- Claim C2 (amended): after `swap_text` with non-empty `new_text` whose
lines hold exactly one matching directive line, the result holds exactly one
matching line — provided the scan does not end in an unrecorded open
single-line span (a bare matching directive at the final buffer index whose
backward walk absorbed nothing; such a stale line would survive). -/
theorem single_block_amended (content : List String) (adding rem : String)
    (hadd : 0 < adding.length)
    (hone : countMatches rem (pySplit adding) = 1)
    (hnb : noBareTrailing content rem = true) :
    countMatches rem (swapLines content adding rem) = 1 := by
  rw [swapLines_eq, if_pos hadd]
  unfold countMatches
  rw [List.countP_append]
  have h0 : List.countP (fun l => msMatch rem l)
      (deleteSpansRev (finalSpans content rem).reverse content) = 0 := by
    rw [List.countP_eq_zero]
    exact fun a ha => by
      simp [no_match_in_survivors content rem (noBareTrailing_spec hnb) a ha]
  rw [h0, Nat.zero_add]
  exact hone

/-- Claim C2, witness. -/
theorem single_block_witness :
    countMatches "WIT.ZFS"
      (swapLines
        ["SET X", "/* BEGIN ANSIBLE MANAGED BLOCK 1 */",
         "MOUNT FILESYSTEM('WIT.ZFS')", "/* END ANSIBLE MANAGED BLOCK 1 */"]
        "/* BEGIN ANSIBLE MANAGED BLOCK 2 */\nMOUNT FILESYSTEM('WIT.ZFS')\n/* END ANSIBLE MANAGED BLOCK 2 */"
        "WIT.ZFS") = 1 :=
  single_block_amended
    ["SET X", "/* BEGIN ANSIBLE MANAGED BLOCK 1 */",
     "MOUNT FILESYSTEM('WIT.ZFS')", "/* END ANSIBLE MANAGED BLOCK 1 */"]
    "/* BEGIN ANSIBLE MANAGED BLOCK 2 */\nMOUNT FILESYSTEM('WIT.ZFS')\n/* END ANSIBLE MANAGED BLOCK 2 */"
    "WIT.ZFS" (by decide) (by decide) (by decide)

/-- Claim C3 (code bug): the write-back guard `if newtext != content:` of
`run_module` compares the string returned by `swap_text` with the (mutated)
list of lines, so it is always true and the member is re-uploaded on every
persistent run — including runs in which the editor's output text equals the
original member text, as at the failing input
`content = ["SOMELINE"], parmtext = "", src = "NOMATCH"`. -/
theorem write_guard_always_writes :
    (∀ (content : List String) (parmtext src : String),
      persistWriteOccurs content parmtext src = true) ∧
    swap_text ["SOMELINE"] "" "NOMATCH" = "SOMELINE" ∧
    swapLines ["SOMELINE"] "" "NOMATCH" = ["SOMELINE"] ∧
    persistWriteOccurs ["SOMELINE"] "" "NOMATCH" = true := by
  refine ⟨fun content parmtext src => rfl, by decide, by decide, rfl⟩

/-- Claim C4, counterexample: the backward comment walk does not stop upon
encountering an END-comment line — such a line is a comment that does not
start with `"/* BEG"`, so `backBreak` is false on it and the walk absorbs it
and keeps going.  Here the walk from the matched directive at index 4
swallows the END marker at index 2 and stops only at the statement at
index 1, so the recorded span also deletes the neighbouring `"STMT"` and
END-marker lines. -/
theorem adjacency_cex :
    backBreak "/* END ANSIBLE MANAGED BLOCK 1 */" = false ∧
    startsTok "/* END ANSIBLE MANAGED BLOCK 1 */"
      ['/', '*', ' ', 'E', 'N', 'D'] = true ∧
    backscanStart
      ["TOP", "STMT", "/* END ANSIBLE MANAGED BLOCK 1 */", "/* C1:note */",
       "MOUNT FILESYSTEM('BBB')", ""] 4 = 1 ∧
    swapLines
      ["TOP", "STMT", "/* END ANSIBLE MANAGED BLOCK 1 */", "/* C1:note */",
       "MOUNT FILESYSTEM('BBB')", ""] "" "BBB" = ["TOP"] := by
  refine ⟨by decide, by decide, by decide, by decide⟩

/-- Claim C4 (amended): for two adjacent well-formed managed blocks — B's
comment lines immediately after A's END marker — removing A with empty
`new_block_text` deletes exactly A's span and leaves B's block, comments
included, fully intact; but the mechanism is not a backward-walk stop at
END-comment lines (those are absorbed, as the counterexample shows): A's
backward walk stops at, and absorbs, A's own BEGIN-comment line, so it
never reaches A's interior from B, and B's lines never match A's pattern. -/
theorem adjacency_amended (P cmtsA contsA cmtsB contsB : List String)
    (beginA mountA endA beginB mountB endB remA : String)
    (hP : 1 ≤ P.length)
    (hPnm : ∀ l ∈ P, msMatch remA l = false)
    (hbeginA : startsTok beginA ['/', '*', ' ', 'B', 'E', 'G'] = true)
    (hcmtsA : ∀ c ∈ cmtsA, startsTok c ['/', '*'] = true ∧
      startsTok c ['/', '*', ' ', 'B', 'E', 'G'] = false)
    (hmountA : msMatch remA mountA = true)
    (hcontsA : ∀ c ∈ contsA, closesBlock c = false)
    (hendA : startsTok endA ['/', '*', ' ', 'E', 'N', 'D'] = true)
    (hB : ∀ l ∈ blockOf beginB cmtsB mountB contsB endB,
      msMatch remA l = false) :
    swapLines
        (P ++ blockOf beginA cmtsA mountA contsA endA ++
          blockOf beginB cmtsB mountB contsB endB) "" remA =
      P ++ blockOf beginB cmtsB mountB contsB endB ∧
    backscanStart
        (P ++ blockOf beginA cmtsA mountA contsA endA ++
          blockOf beginB cmtsB mountB contsB endB)
        (P.length + cmtsA.length + 1) = P.length := by
  constructor
  · have h := swapLines_single_block P cmtsA contsA
      (blockOf beginB cmtsB mountB contsB endB) beginA mountA endA remA ""
      hP hPnm hbeginA hcmtsA hmountA hcontsA hendA hB
    rw [if_neg (by decide), List.append_nil] at h
    exact h
  · have hbl : ∀ j, j < cmtsA.length + contsA.length + 3 →
        (P ++ blockOf beginA cmtsA mountA contsA endA ++
          blockOf beginB cmtsB mountB contsB endB).getD (P.length + j) "" =
        (blockOf beginA cmtsA mountA contsA endA).getD j "" := by
      intro j hj
      exact getD_middle _ _ _ j (by rw [blockOf_length]; omega)
    have g0 : (P ++ blockOf beginA cmtsA mountA contsA endA ++
        blockOf beginB cmtsB mountB contsB endB).getD P.length "" = beginA := by
      have h0 := hbl 0 (by omega)
      rw [Nat.add_zero] at h0
      rw [h0, blockOf_getD_zero]
    refine backscanStart_exact hP ?_ ?_ (by omega)
    · rw [g0]
      exact backBreak_of_begin hbeginA
    · intro t ht1 ht2
      have hj3 : t - P.length - 1 < cmtsA.length := by omega
      have h1 := hbl (t - P.length) (by omega)
      rw [show P.length + (t - P.length) = t by omega] at h1
      have h2 := blockOf_getD_cmts beginA mountA endA cmtsA contsA
        (t - P.length - 1) hj3
      rw [show t - P.length - 1 + 1 = t - P.length by omega] at h2
      rw [h1, h2]
      have hmem := getD_mem cmtsA (t - P.length - 1) hj3
      exact backBreak_eq_false_of_comment (hcmtsA _ hmem).1 (hcmtsA _ hmem).2

/-- Claim C4, witness. -/
theorem adjacency_witness :
    swapLines
        (["TOP"] ++
          blockOf "/* BEGIN ANSIBLE MANAGED BLOCK 1 */" ["/* C1:a note */"]
            "MOUNT FILESYSTEM('AAA')" ["  MODE(RDWR)"]
            "/* END ANSIBLE MANAGED BLOCK 1 */" ++
          blockOf "/* BEGIN ANSIBLE MANAGED BLOCK 2 */" ["/* C1:b note */"]
            "MOUNT FILESYSTEM('BBB')" ["  MODE(READ)"]
            "/* END ANSIBLE MANAGED BLOCK 2 */") "" "AAA" =
      ["TOP"] ++
        blockOf "/* BEGIN ANSIBLE MANAGED BLOCK 2 */" ["/* C1:b note */"]
          "MOUNT FILESYSTEM('BBB')" ["  MODE(READ)"]
          "/* END ANSIBLE MANAGED BLOCK 2 */" ∧
    backscanStart
        (["TOP"] ++
          blockOf "/* BEGIN ANSIBLE MANAGED BLOCK 1 */" ["/* C1:a note */"]
            "MOUNT FILESYSTEM('AAA')" ["  MODE(RDWR)"]
            "/* END ANSIBLE MANAGED BLOCK 1 */" ++
          blockOf "/* BEGIN ANSIBLE MANAGED BLOCK 2 */" ["/* C1:b note */"]
            "MOUNT FILESYSTEM('BBB')" ["  MODE(READ)"]
            "/* END ANSIBLE MANAGED BLOCK 2 */") 3 = 1 :=
  adjacency_amended ["TOP"] ["/* C1:a note */"] ["  MODE(RDWR)"]
    ["/* C1:b note */"] ["  MODE(READ)"]
    "/* BEGIN ANSIBLE MANAGED BLOCK 1 */" "MOUNT FILESYSTEM('AAA')"
    "/* END ANSIBLE MANAGED BLOCK 1 */" "/* BEGIN ANSIBLE MANAGED BLOCK 2 */"
    "MOUNT FILESYSTEM('BBB')" "/* END ANSIBLE MANAGED BLOCK 2 */" "AAA"
    (by decide) (by decide) (by decide) (by decide) (by decide) (by decide)
    (by decide) (by decide)

/-- Claim C5, counterexample: a top-level statement line that ends the
forward scan is itself part of the deleted span — here `"SET TIMEZONE"`
closes the block opened by the matched directive and is deleted with it,
while the claim says it survives. -/
theorem forward_close_cex :
    swapLines ["MOUNT FILESYSTEM('CCC')", "SET TIMEZONE", "KEEP"] "" "CCC" =
      ["KEEP"] ∧
    "SET TIMEZONE" ∉
      swapLines ["MOUNT FILESYSTEM('CCC')", "SET TIMEZONE", "KEEP"] "" "CCC" := by
  refine ⟨by decide, by decide⟩

/-- Claim C5 (amended): the forward scan closes the open block on a line
starting with a non-whitespace, non-comment character, on an END-comment
line, or on a blank line — and in every one of these cases the closing
line's index becomes the recorded span end (the closer is absorbed into the
deleted span, including a closing top-level statement); whitespace-led lines
and non-END comment lines keep the block open. -/
theorem forward_close_amended (content : List String) (rem : String) (i : Nat)
    (st : ScanState) (s : Nat) (h : st.start? = some s) :
    (closesBlock (content.getD i "") = true →
      scanStep content rem i st = ⟨none, none, dictInsert st.boneyard s i⟩) ∧
    (closesBlock (content.getD i "") = false →
      scanStep content rem i st = ⟨some s, some i, st.boneyard⟩) ∧
    (∀ (line : String) (c : Char) (cs : List Char), line.data = c :: cs →
      c ≠ ' ' → c ≠ '\t' → startsTok line ['/', '*'] = false →
      closesBlock line = true) ∧
    (∀ line : String, startsTok line ['/', '*', ' ', 'E', 'N', 'D'] = true →
      closesBlock line = true) ∧
    closesBlock "" = true ∧
    (∀ (line : String) (c : Char) (cs : List Char), line.data = c :: cs →
      (c = ' ' ∨ c = '\t') → closesBlock line = false) ∧
    (∀ line : String, startsTok line ['/', '*'] = true →
      startsTok line ['/', '*', ' ', 'E', 'N', 'D'] = false →
      closesBlock line = false) := by
  obtain ⟨s?, e?, bd⟩ := st
  simp only at h
  subst h
  exact ⟨fun hc => scanStep_open_close hc, fun hc => scanStep_open_cont hc,
    fun line c cs h1 h2 h3 h4 => closesBlock_of_statement h1 h2 h3 h4,
    fun line h1 => closesBlock_of_end h1, rfl,
    fun line c cs h1 h2 => closesBlock_eq_false_of_ws h1 h2,
    fun line h1 h2 => closesBlock_eq_false_of_comment h1 h2⟩

/-- Claim C5, witness. -/
theorem forward_close_witness :
    scanStep ["MOUNT FILESYSTEM('WC')", "NEXT STATEMENT"] "WC" 1
      ⟨some 0, some 0, []⟩ = ⟨none, none, dictInsert [] 0 1⟩ :=
  (forward_close_amended ["MOUNT FILESYSTEM('WC')", "NEXT STATEMENT"] "WC" 1
    ⟨some 0, some 0, []⟩ 0 rfl).1 (by decide)

/-- Claim C6, counterexample: when the open span consists of only the single
matched directive line at the last index, `swap_text` records nothing (the
`start != end` trailing flush drops it) and deletes nothing — the claim says
the span is deleted. -/
theorem trailing_span_cex :
    swapLines ["DATA", "MOUNT FILESYSTEM('DDD')"] "" "DDD" =
      ["DATA", "MOUNT FILESYSTEM('DDD')"] ∧
    (scanAll ["DATA", "MOUNT FILESYSTEM('DDD')"] "DDD").start? = some 1 ∧
    finalSpans ["DATA", "MOUNT FILESYSTEM('DDD')"] "DDD" = [] := by
  refine ⟨by decide, by decide, by decide⟩

/-- Claim C6 (amended): a block still open when the buffer ends extends to
the last line; it is recorded and its whole trailing span is deleted
provided it spans at least two lines (`start ≠ end`), while a single-line
open span is discarded and survives. -/
theorem trailing_span_amended (content : List String) (rem : String) (s : Nat)
    (h : (scanAll content rem).start? = some s) :
    (scanAll content rem).end? = some (content.length - 1) ∧
    (s ≠ content.length - 1 →
      finalSpans content rem =
        dictInsert (scanAll content rem).boneyard s (content.length - 1)) ∧
    (s = content.length - 1 →
      finalSpans content rem = (scanAll content rem).boneyard) ∧
    (s < content.length - 1 →
      ∃ rest, swapLines content "" rem = deleteSpansRev rest (content.take s)) := by
  obtain ⟨hkeys, hwf, hlw, hopen, hcov⟩ := GI_final content rem
  obtain ⟨hend, hi1, hsi, hwit, hlastle⟩ := hopen s h
  refine ⟨hend, ?_, ?_, ?_⟩
  · intro hne
    rw [finalSpans_of_open content rem s (content.length - 1) h hend, if_pos hne]
  · intro heq
    rw [finalSpans_of_open content rem s (content.length - 1) h hend,
      if_neg (by omega)]
  · intro hlt
    have hfs : finalSpans content rem =
        dictInsert (scanAll content rem).boneyard s (content.length - 1) := by
      rw [finalSpans_of_open content rem s (content.length - 1) h hend,
        if_pos (by omega)]
    have hdel1 : delSpan content s (content.length - 1) = content.take s := by
      unfold delSpan
      rw [Nat.max_eq_left (by omega), List.drop_eq_nil_of_le (by omega),
        List.append_nil]
    rcases List.eq_nil_or_concat (scanAll content rem).boneyard with
      hnil | ⟨pre, lst, hcc⟩
    · refine ⟨[], ?_⟩
      rw [swapLines_eq, if_neg (by decide), hfs, hnil,
        dictInsert_not_mem (by simp)]
      show deleteSpansRev [] (delSpan content s (content.length - 1)) =
        deleteSpansRev [] (content.take s)
      rw [hdel1]
    · rw [List.concat_eq_append] at hcc
      have hlast1 : lst.1 ≤ s := hlastle pre lst hcc
      have hkpre : ∀ p ∈ pre, p.1 < lst.1 := by
        rw [hcc] at hkeys
        unfold KeysInc at hkeys
        rw [List.pairwise_append] at hkeys
        exact fun p hp => hkeys.2.2 p hp lst (by simp)
      by_cases hsl : s = lst.1
      · obtain ⟨l1, l2⟩ := lst
        simp only at hlast1 hkpre
        subst hsl
        refine ⟨pre.reverse, ?_⟩
        rw [swapLines_eq, if_neg (by decide), hfs, hcc,
          dictInsert_last (fun p hp => by have := hkpre p hp; omega),
          List.reverse_append]
        show deleteSpansRev pre.reverse (delSpan content s (content.length - 1)) =
          deleteSpansRev pre.reverse (content.take s)
        rw [hdel1]
      · have hne2 : ∀ p ∈ (scanAll content rem).boneyard, p.1 ≠ s := by
          intro p hp
          rw [hcc] at hp
          rcases List.mem_append.mp hp with hm | hm
          · have := hkpre p hm
            omega
          · simp at hm
            subst hm
            omega
        refine ⟨(scanAll content rem).boneyard.reverse, ?_⟩
        rw [swapLines_eq, if_neg (by decide), hfs, dictInsert_not_mem hne2,
          List.reverse_append]
        show deleteSpansRev (scanAll content rem).boneyard.reverse
            (delSpan content s (content.length - 1)) =
          deleteSpansRev (scanAll content rem).boneyard.reverse (content.take s)
        rw [hdel1]

/-- Claim C6, witness. -/
theorem trailing_span_witness :
    (scanAll ["pad", "MOUNT FILESYSTEM('WT')", "/* note */"] "WT").end? =
      some 2 ∧
    ∃ rest, swapLines ["pad", "MOUNT FILESYSTEM('WT')", "/* note */"] "" "WT" =
      deleteSpansRev rest
        ((["pad", "MOUNT FILESYSTEM('WT')", "/* note */"] : List String).take 1) := by
  have h := trailing_span_amended ["pad", "MOUNT FILESYSTEM('WT')", "/* note */"]
    "WT" 1 (by decide)
  exact ⟨h.1, h.2.2.2 (by decide)⟩

/-- Claim C7, counterexample: with only non-BEGIN comment lines above the
matched directive, the backward walk falls off at index 1 without absorbing
anything — the block start stays at the directive's index, line 0 is never
examined and survives, while the claim says the start becomes 0 and line 0
is deleted. -/
theorem backscan_start_cex :
    swapLines ["/* note0 */", "/* note1 */", "MOUNT FILESYSTEM('EEE')", ""]
      "" "EEE" = ["/* note0 */", "/* note1 */"] ∧
    backscanStart ["/* note0 */", "/* note1 */", "MOUNT FILESYSTEM('EEE')", ""]
      2 = 2 := by
  refine ⟨by decide, by decide⟩

/-- Claim C7 (amended): the backward walk examines indices down to 1 only;
index 0 is never examined (the result does not depend on line 0), and when
every examined line is a non-BEGIN comment the walk absorbs nothing: the
block start remains the matched directive's own index. -/
theorem backscan_start_amended (content : List String) (idx : Nat)
    (h : ∀ k, 1 ≤ k → k < idx →
      (content.getD k "").data ≠ [] ∧
      startsTok (content.getD k "") ['/', '*'] = true ∧
      startsTok (content.getD k "") ['/', '*', ' ', 'B', 'E', 'G'] = false) :
    backscanStart content idx = idx ∧
    ∀ (a b : String) (rest : List String) (t : Nat),
      backscanAux (a :: rest) idx t = backscanAux (b :: rest) idx t := by
  constructor
  · have haux : ∀ t, t < idx → backscanAux content idx t = idx := by
      intro t
      induction t with
      | zero => intro _; rfl
      | succ n ih =>
        intro hti
        unfold backscanAux
        have hb := h (n + 1) (by omega) hti
        rw [if_neg (by rw [backBreak_eq_false_of_comment hb.2.1 hb.2.2]; simp)]
        exact ih (by omega)
    unfold backscanStart
    rcases Nat.eq_zero_or_pos idx with h0 | h1
    · rw [h0]
      rfl
    · exact haux (idx - 1) (by omega)
  · intro a b rest t
    induction t with
    | zero => rfl
    | succ n ih =>
      unfold backscanAux
      rw [show (a :: rest).getD (n + 1) "" = rest.getD n "" from List.getD_cons_succ,
        show (b :: rest).getD (n + 1) "" = rest.getD n "" from List.getD_cons_succ]
      by_cases hb : backBreak (rest.getD n "") = true
      · rw [if_pos hb, if_pos hb]
      · rw [if_neg hb, if_neg hb, ih]

/-- Claim C7, witness. -/
theorem backscan_start_witness :
    backscanStart ["x", "/* a */", "/* b */", "MOUNT FILESYSTEM('WB')"] 3 = 3 :=
  (backscan_start_amended ["x", "/* a */", "/* b */", "MOUNT FILESYSTEM('WB')"] 3
    (by
      intro k h1 h2
      have hk : k = 1 ∨ k = 2 := by omega
      rcases hk with hk | hk <;> subst hk <;>
        exact ⟨by decide, by decide, by decide⟩)).1

/-- Claim C8, counterexample: the compiled pattern has no `re.IGNORECASE`
flag — a line with lowercase keywords, or with the identifier written in
lowercase, does not match, while the identifier argument itself is
upper-cased before matching. -/
theorem case_matching_cex :
    msMatch "FFF" "mount filesystem('FFF')" = false ∧
    msMatch "FFF" "MOUNT FILESYSTEM('fff')" = false ∧
    msMatch "fff" "MOUNT FILESYSTEM('FFF')" = true := by
  refine ⟨by decide, by decide, by decide⟩

/-- Claim C8 (amended): matching is not case-insensitive in the line — the
pattern is compiled without `re.IGNORECASE`, so a line with lowercase
keywords never matches, and a matching line must carry the identifier
verbatim as upper-cased; only the `removing` argument is handled
case-insensitively, being upper-cased before it is spliced into the
pattern.  The splice is textual: an identifier over the pattern-literal
part of the data-set alphabet (letters, digits, `@`, `#`, `-`, and the
self-matching wildcard `.`) matches the line built from its upper-casing,
while an identifier containing `$` — a mid-pattern anchor the mandatory
trailing `'` makes unsatisfiable — matches no line at all. -/
theorem case_matching_amended :
    (∀ id : String, (∀ c ∈ (pyUpper id).data, dsnPatChar c = true) →
      msMatch id ("MOUNT FILESYSTEM('" ++ pyUpper id ++ "')") = true) ∧
    (∀ id line : String, '$' ∈ (pyUpper id).data → msMatch id line = false) ∧
    (∀ id rest : String, msMatch id ("mount" ++ rest) = false) ∧
    (∀ id line : String, (∀ a ∈ (pyUpper id).data, a ≠ '.' ∧ a ≠ '$') →
      msMatch id line = true →
      ∃ pre rest : List Char, line.data = pre ++ (pyUpper id).data ++ rest) ∧
    msMatch "ZZZ" "MOUNT FILESYSTEM('zzz')" = false ∧
    msMatch "zzz" "MOUNT FILESYSTEM('ZZZ')" = true :=
  ⟨fun id h =>
      msMatch_build id (fun hmem => absurd (h '$' hmem) (by decide)),
   fun id line h => msMatch_dollar id line h,
   msMatch_lower,
   fun id line hm h => msMatch_carries id line hm h,
   by decide, by decide⟩

/-- Claim C8, witness. -/
theorem case_matching_witness :
    msMatch "zfs.agg" ("MOUNT FILESYSTEM('" ++ pyUpper "zfs.agg" ++ "')") = true ∧
    msMatch "AB$C" "MOUNT FILESYSTEM('AB$C')" = false ∧
    ∃ pre rest : List Char,
      ("MOUNT FILESYSTEM('KEY')" : String).data =
        pre ++ (pyUpper "KEY").data ++ rest :=
  ⟨case_matching_amended.1 "zfs.agg" (by decide),
   case_matching_amended.2.1 "AB$C" "MOUNT FILESYSTEM('AB$C')" (by decide),
   case_matching_amended.2.2.2.1 "KEY" "MOUNT FILESYSTEM('KEY')" (by decide)
     (by decide)⟩

/-- Claim C9 (confirmed): the comment builder wraps an overlong accumulated
comment by scanning indices 59 down to 49 for a space and cutting there
(the continuation resumes after the space), falling back to a hard cut after
60 characters when the scan window holds no space: a 61-character comment
whose only whitespace is a space at index 50 emits its first 50 characters
as the first comment line and the characters from index 51 as the
continuation; a 61-character comment with no space at any index ≥ 48 emits
its first 60 characters and then the single remaining character. -/
theorem wordwrap_boundary :
    (∀ s : List Char, s.length = 61 → s.getD 50 'x' = ' ' →
      (∀ i, i < 61 → i ≠ 50 → isPySpace (s.getD i 'x') = false) →
      buildCommentLines [s.asString] =
        "/* C1:" ++ (s.take 50).asString ++ " */\n/* C2:" ++
          (s.drop 51).asString ++ " */\n") ∧
    (∀ t : List Char, t.length = 61 → isPySpace (t.getD 0 'x') = false →
      (∀ i, i < 61 → 48 ≤ i → isPySpace (t.getD i 'x') = false) →
      buildCommentLines [t.asString] =
        "/* C1:" ++ (t.take 60).asString ++ " */\n/* C2:" ++
          (t.drop 60).asString ++ " */\n") :=
  ⟨buildComment_soft_wrap,
   fun t h1 h2 h3 => buildComment_hard_wrap t h1 h2 (fun i hi1 hi2 => h3 i hi2 hi1)⟩

/-- Claim C9, witness. -/
theorem wordwrap_boundary_witness :
    buildCommentLines
      [((List.range 61).map (fun i => if i = 50 then ' ' else 'a')).asString] =
      "/* C1:" ++
        (((List.range 61).map (fun i => if i = 50 then ' ' else 'a')).take 50).asString ++
        " */\n/* C2:" ++
        (((List.range 61).map (fun i => if i = 50 then ' ' else 'a')).drop 51).asString ++
        " */\n" ∧
    buildCommentLines [((List.range 61).map (fun _ => 'b')).asString] =
      "/* C1:" ++ (((List.range 61).map (fun _ => 'b')).take 60).asString ++
        " */\n/* C2:" ++ (((List.range 61).map (fun _ => 'b')).drop 60).asString ++
        " */\n" :=
  ⟨wordwrap_boundary.1 _ (by decide) (by decide) (by decide),
   wordwrap_boundary.2 _ (by decide) (by decide) (by decide)⟩

/-- Claim C10, counterexample: the recorded spans need not be disjoint — a
later span's backward walk can absorb the blank line that closed the
previous span — and deleting the overlapping spans in descending start-index
order removes lines outside every recorded span: here `"KEEPME"`, at index 5
and covered by no span, is deleted. -/
theorem span_bookkeeping_cex :
    finalSpans
      ["MOUNT FILESYSTEM('GGG')", "", "/* x */", "MOUNT FILESYSTEM('GGG')",
       "", "KEEPME"] "GGG" = [(0, 1), (1, 4)] ∧
    swapLines
      ["MOUNT FILESYSTEM('GGG')", "", "/* x */", "MOUNT FILESYSTEM('GGG')",
       "", "KEEPME"] "" "GGG" = [] := by
  refine ⟨by decide, by decide⟩

/-- Claim C10 (amended): every recorded span is well formed (start ≤ end)
and the recorded start indices are strictly increasing, but the spans need
not be pairwise disjoint; deletion in descending start order removes at
least the union of the spans — every surviving line originates at an index
outside every recorded span (possibly with further lines beyond the union
removed). -/
theorem span_bookkeeping_amended (content : List String) (rem : String) :
    (∀ se ∈ finalSpans content rem, se.1 ≤ se.2) ∧
    List.Pairwise (fun a b => a.1 < b.1) (finalSpans content rem) ∧
    ∀ x ∈ deleteSpansRev (finalSpans content rem).reverse content,
      ∃ k, k < content.length ∧ content.getD k "" = x ∧
        ∀ se ∈ finalSpans content rem, ¬(se.1 ≤ k ∧ k ≤ se.2) := by
  obtain ⟨hkeys, hwfle⟩ := finalSpans_keys content rem
  refine ⟨hwfle, hkeys, ?_⟩
  intro x hx
  obtain ⟨k, hk, hkx, hun⟩ := survivors (finalSpans content rem).reverse content
    (by rw [List.pairwise_reverse]; exact hkeys) x hx
  exact ⟨k, hk, hkx, fun se hse => hun se (List.mem_reverse.mpr hse)⟩

/-- Claim C10, witness. -/
theorem span_bookkeeping_witness :
    ∃ k, k < (["A", "MOUNT FILESYSTEM('WS')", ""] : List String).length ∧
      (["A", "MOUNT FILESYSTEM('WS')", ""] : List String).getD k "" = "A" ∧
      ∀ se ∈ finalSpans ["A", "MOUNT FILESYSTEM('WS')", ""] "WS",
        ¬(se.1 ≤ k ∧ k ≤ se.2) :=
  (span_bookkeeping_amended ["A", "MOUNT FILESYSTEM('WS')", ""] "WS").2.2 "A"
    (by decide)
